import Mathlib

/-!
Verification development for the archlin repository's deployment
retry-and-repair loop (`src/debug.js`) and fix registry
(`src/unnamed/part_001`, i.e. `fix-registry.js`).

The JavaScript source is shallowly embedded: strings are `String`/`List Char`,
the filesystem is an explicit lookup function threaded through the model,
JavaScript 32-bit integer arithmetic is `Int` with explicit wrapping, and
fallible operations return `Option`/`Except`.  Every definition mirrors the
corresponding function of the source; deviations (e.g. elided console output,
spinners, timestamps) are noted in doc comments.
-/

/-! ## Generic list and string helpers -/

/-- Boolean test that `p` is an initial segment of `s` (model of JavaScript's
`String.prototype.startsWith` at the character-list level). -/
def listStarts : List Char → List Char → Bool
  | [], _ => true
  | _ :: _, [] => false
  | a :: as, b :: bs => a == b && listStarts as bs

/-- Boolean test that `t` occurs contiguously inside `s` (model of JavaScript's
`String.prototype.includes`). -/
def hasSub (t : List Char) : List Char → Bool
  | [] => listStarts t []
  | c :: cs => listStarts t (c :: cs) || hasSub t cs

/-- `occursIn t s`: `t` is a contiguous segment of `s`. -/
def occursIn (t s : List Char) : Prop := ∃ a b, s = a ++ t ++ b

/-- Split a character list at `'/'` separators.  Always returns at least one
(possibly empty) part, matching `"a/b".split("/")` semantics. -/
def splitOnSlash : List Char → List (List Char)
  | [] => [[]]
  | c :: rest =>
    if c = '/' then [] :: splitOnSlash rest
    else
      match splitOnSlash rest with
      | [] => [[c]]
      | p :: ps => (c :: p) :: ps

/-- Join parts with `'/'` separators (inverse of `splitOnSlash`). -/
def joinComps : List (List Char) → List Char
  | [] => []
  | [p] => p
  | p :: q :: ps => p ++ '/' :: joinComps (q :: ps)

/-- Segment normalisation performed by Node's `path.resolve`/`path.normalize`
on an absolute path: empty and `.` segments are dropped, `..` pops the
previous segment, and `..` above the root is discarded. -/
def resolveComps (parts : List (List Char)) : List (List Char) :=
  parts.foldl
    (fun acc part =>
      if part = [] ∨ part = ['.'] then acc
      else if part = ['.', '.'] then acc.dropLast
      else acc ++ [part]) []

/-- Length of the longest common initial run of components. -/
def commonLen : List (List Char) → List (List Char) → Nat
  | a :: as, b :: bs => if a = b then commonLen as bs + 1 else 0
  | _, _ => 0

/-- Components of Node's `path.relative(base, target)` once both arguments are
resolved into component lists: one `..` for every base component past the
common part, followed by the target components past the common part. -/
def relativeComps (f t : List (List Char)) : List (List Char) :=
  List.replicate (f.length - commonLen f t) ['.', '.'] ++ t.drop (commonLen f t)

/-- `path.relative(base, target)` of the posix `path` module (both arguments
resolved, as Node does internally via `path.resolve`). -/
def pathRelative (base target : String) : String :=
  String.mk (joinComps (relativeComps
    (resolveComps (splitOnSlash base.data))
    (resolveComps (splitOnSlash target.data))))

/-- `path.isAbsolute` for posix paths. -/
def isAbsolutePath (s : String) : Bool :=
  match s.data with
  | '/' :: _ => true
  | _ => false

/-- JavaScript `s.startsWith(pre)`. -/
def strStartsWith (s pre : String) : Bool := listStarts pre.data s.data

/-- JavaScript `s.endsWith(suf)` (used to model anchored-suffix regexes). -/
def strEndsWith (s suf : String) : Bool := listStarts suf.data.reverse s.data.reverse

/-- Strip trailing `'/'` characters (Node's `basename`/`dirname` ignore
trailing separators). -/
def dropTrailingSlashes (cs : List Char) : List Char :=
  (cs.reverse.dropWhile (· = '/')).reverse

/-- `path.basename` for posix paths: the last component after stripping
trailing separators. -/
def pathBasename (s : String) : String :=
  let t := dropTrailingSlashes s.data
  String.mk (((splitOnSlash t).getLast?).getD [])

/-- `path.dirname` for posix paths: everything before the last separator,
`"."` when there is none. -/
def pathDirname (s : String) : String :=
  let cs := dropTrailingSlashes s.data
  let pre := (cs.reverse.dropWhile (· ≠ '/')).reverse
  match pre with
  | [] => "."
  | ['/'] => "/"
  | l => String.mk l.dropLast

/-- Segment normalisation of Node's `path.normalize` for a possibly relative
path: like `resolveComps` but excess `..` segments are kept. -/
def resolveCompsRel (parts : List (List Char)) : List (List Char) :=
  parts.foldl
    (fun acc part =>
      if part = [] ∨ part = ['.'] then acc
      else if part = ['.', '.'] then
        if acc = [] ∨ acc.getLast? = some ['.', '.'] then acc ++ [part]
        else acc.dropLast
      else acc ++ [part]) []

/-- `path.join(dir, p)`: concatenation with a separator followed by
normalisation (Node's `join` calls `normalize` on the joined string). -/
def pathJoin (dir p : String) : String :=
  let cs := dir.data ++ '/' :: p.data
  match cs with
  | '/' :: _ => String.mk ('/' :: joinComps (resolveComps (splitOnSlash cs)))
  | _ => String.mk (joinComps (resolveCompsRel (splitOnSlash cs)))

/-- `s.replace(/suf$/, rep)`: replace an anchored suffix, leaving the string
unchanged when the suffix does not match. -/
def replaceSuffix (s suf rep : String) : String :=
  if strEndsWith s suf then
    String.mk (s.data.take (s.data.length - suf.data.length) ++ rep.data)
  else s

/-- Mapping of a build-output path to its source path, from
`src/debug.js` line 564:
`filePath.replace(/^dist\//, '').replace(/\.js$/, '.ts').replace(/\.d\.ts$/, '.ts')`. -/
def distToSource (p : String) : String :=
  let q := if strStartsWith p "dist/" then String.mk (p.data.drop 5) else p
  replaceSuffix (replaceSuffix q ".js" ".ts") ".d.ts" ".ts"

/-- `normalizeFilePath` from `src/debug.js` lines 255-266: absolute paths that
start with the project directory string are rewritten with `path.relative`;
other absolute paths fall back to `path.basename`; relative paths pass
through unchanged. -/
def normalizeFilePath (filePath projectDir : String) : String :=
  if isAbsolutePath filePath then
    if strStartsWith filePath projectDir then pathRelative projectDir filePath
    else pathBasename filePath
  else filePath

inductive Json where
  | null : Json
  | bool (b : Bool) : Json
  | num (lexeme : String) : Json
  | str (s : String) : Json
  | arr (elems : List Json) : Json
  | obj (fields : List (String × Json)) : Json

/-- JSON whitespace accepted by `JSON.parse`. -/
def jsonWs (c : Char) : Bool := c = ' ' || c = '\t' || c = '\n' || c = '\r'

def skipWs : List Char → List Char
  | c :: cs => if jsonWs c then skipWs cs else c :: cs
  | [] => []

def hexDigitVal (c : Char) : Option Nat :=
  if '0' ≤ c ∧ c ≤ '9' then some (c.toNat - '0'.toNat)
  else if 'a' ≤ c ∧ c ≤ 'f' then some (c.toNat - 'a'.toNat + 10)
  else if 'A' ≤ c ∧ c ≤ 'F' then some (c.toNat - 'A'.toNat + 10)
  else none

/-- Parse the body of a JSON string literal (after the opening quote),
returning the decoded characters and the remainder after the closing quote.
A `\uXXXX` escape outside the valid scalar range decodes to `Char.ofNat`'s
fallback, which the claims never observe. -/
def parseStringBody : List Char → Option (List Char × List Char)
  | [] => none
  | '"' :: rest => some ([], rest)
  | '\\' :: e :: rest =>
    match e with
    | '"' => (parseStringBody rest).map (fun r => ('"' :: r.1, r.2))
    | '\\' => (parseStringBody rest).map (fun r => ('\\' :: r.1, r.2))
    | '/' => (parseStringBody rest).map (fun r => ('/' :: r.1, r.2))
    | 'b' => (parseStringBody rest).map (fun r => (Char.ofNat 8 :: r.1, r.2))
    | 'f' => (parseStringBody rest).map (fun r => (Char.ofNat 12 :: r.1, r.2))
    | 'n' => (parseStringBody rest).map (fun r => ('\n' :: r.1, r.2))
    | 'r' => (parseStringBody rest).map (fun r => ('\r' :: r.1, r.2))
    | 't' => (parseStringBody rest).map (fun r => ('\t' :: r.1, r.2))
    | 'u' =>
      match rest with
      | h1 :: h2 :: h3 :: h4 :: rest2 =>
        match hexDigitVal h1, hexDigitVal h2, hexDigitVal h3, hexDigitVal h4 with
        | some a, some b, some c, some d =>
          (parseStringBody rest2).map
            (fun r => (Char.ofNat (((a * 16 + b) * 16 + c) * 16 + d) :: r.1, r.2))
        | _, _, _, _ => none
      | _ => none
    | _ => none
  | c :: rest =>
    if c.toNat < 32 then none
    else (parseStringBody rest).map (fun r => (c :: r.1, r.2))

def spanDigits (cs : List Char) : List Char × List Char :=
  (cs.takeWhile Char.isDigit, cs.dropWhile Char.isDigit)

def parseExpPart (acc : List Char) (cs : List Char) : Option (List Char × List Char) :=
  match cs with
  | e :: r =>
    if e = 'e' ∨ e = 'E' then
      let (sgn, r1) :=
        match r with
        | '+' :: r2 => (['+'], r2)
        | '-' :: r2 => (['-'], r2)
        | r2 => (([] : List Char), r2)
      match spanDigits r1 with
      | ([], _) => none
      | (ds, r2) => some (acc ++ e :: (sgn ++ ds), r2)
    else some (acc, e :: r)
  | [] => some (acc, [])

def parseFracExp (acc : List Char) (cs : List Char) : Option (List Char × List Char) :=
  match cs with
  | '.' :: r =>
    match spanDigits r with
    | ([], _) => none
    | (ds, r2) => parseExpPart (acc ++ '.' :: ds) r2
  | _ => parseExpPart acc cs

/-- Parse a JSON number per the JSON grammar, returning its lexeme. -/
def parseNumber (cs : List Char) : Option (List Char × List Char) :=
  let (neg, cs1) :=
    match cs with
    | '-' :: r => ((['-'] : List Char), r)
    | r => (([] : List Char), r)
  match cs1 with
  | '0' :: r => parseFracExp (neg ++ ['0']) r
  | c :: r =>
    if c.isDigit then
      let (ds, r2) := spanDigits r
      parseFracExp (neg ++ c :: ds) r2
    else none
  | [] => none

mutual

/-- Fuel-indexed recursive-descent parser for one JSON value. -/
def parseValue : Nat → List Char → Option (Json × List Char)
  | 0, _ => none
  | fuel + 1, cs =>
    match skipWs cs with
    | 'n' :: 'u' :: 'l' :: 'l' :: rest => some (.null, rest)
    | 't' :: 'r' :: 'u' :: 'e' :: rest => some (.bool true, rest)
    | 'f' :: 'a' :: 'l' :: 's' :: 'e' :: rest => some (.bool false, rest)
    | '"' :: rest => (parseStringBody rest).map (fun r => (.str (String.mk r.1), r.2))
    | '[' :: rest =>
      match skipWs rest with
      | ']' :: r2 => some (.arr [], r2)
      | r2 => (parseElems fuel r2).map (fun r => (.arr r.1, r.2))
    | c :: rest =>
      if c = '\x7b' then
        match skipWs rest with
        | c2 :: r2 =>
          if c2 = '\x7d' then some (.obj [], r2)
          else (parseMembers fuel (c2 :: r2)).map (fun r => (.obj r.1, r.2))
        | [] => none
      else if c = '-' ∨ c.isDigit then
        (parseNumber (c :: rest)).map (fun r => (.num (String.mk r.1), r.2))
      else none
    | [] => none

/-- Elements of a (nonempty) JSON array, up to and including `']'`. -/
def parseElems : Nat → List Char → Option (List Json × List Char)
  | 0, _ => none
  | fuel + 1, cs =>
    match parseValue fuel cs with
    | none => none
    | some (v, r) =>
      match skipWs r with
      | ',' :: r2 => (parseElems fuel r2).map (fun res => (v :: res.1, res.2))
      | ']' :: r2 => some ([v], r2)
      | _ => none

/-- Members of a (nonempty) JSON object, up to and including the closing
brace. -/
def parseMembers : Nat → List Char → Option (List (String × Json) × List Char)
  | 0, _ => none
  | fuel + 1, cs =>
    match skipWs cs with
    | '"' :: rest =>
      match parseStringBody rest with
      | none => none
      | some (key, r1) =>
        match skipWs r1 with
        | ':' :: r2 =>
          match parseValue fuel r2 with
          | none => none
          | some (v, r3) =>
            match skipWs r3 with
            | ',' :: r4 =>
              (parseMembers fuel r4).map (fun res => ((String.mk key, v) :: res.1, res.2))
            | c :: r4 => if c = '\x7d' then some ([(String.mk key, v)], r4) else none
            | [] => none
        | _ => none
    | _ => none

end

/-- JavaScript's `JSON.parse`: parse one complete JSON document, requiring the
whole input (modulo trailing whitespace) to be consumed. -/
def jsonParse (s : String) : Option Json :=
  match parseValue (2 * s.data.length + 2) s.data with
  | some (v, rest) => if skipWs rest = [] then some v else none
  | none => none

/-- Property access `j.name` on a parsed JSON value: `JSON.parse` keeps the
last of duplicate object keys; access on a non-object yields `undefined`
(`none`). -/
def getField (j : Json) (name : String) : Option Json :=
  match j with
  | .obj fields => (fields.reverse.find? (fun kv => kv.1 == name)).map (·.2)
  | _ => none

/-- Mantissa-zero test for a JSON number lexeme: a JSON number is falsy in
JavaScript exactly when its mantissa digits are all zero. -/
def numLexemeIsZero (lexeme : String) : Bool :=
  ((lexeme.data.takeWhile (fun c => c ≠ 'e' ∧ c ≠ 'E')).filter Char.isDigit).all (· == '0')

/-- JavaScript truthiness of a parsed JSON value. -/
def jsTruthy (j : Json) : Bool :=
  match j with
  | .null => false
  | .bool b => b
  | .num lexeme => !(numLexemeIsZero lexeme)
  | .str s => !(s == "")
  | .arr _ => true
  | .obj _ => true

/-- The greedy regex match `responseText.match(/\x7b[\s\S]*\x7d/)` of
`src/debug.js` line 459: the substring from the first opening brace through
the last closing brace, `none` when no such substring exists. -/
def extractJsonObject (s : String) : Option String :=
  let t := s.data.dropWhile (· ≠ '\x7b')
  let u := (t.reverse.dropWhile (· ≠ '\x7d')).reverse
  if u.isEmpty then none else some (String.mk u)

/-! ## Filesystem model and the Fix Applicator -/

/-- The filesystem as the scripts observe it: a readable-file lookup plus the
set of directories that exist.  `fs.promises.readFile(p)` succeeding (and
`fsSync.existsSync(p)` holding) corresponds to `files p = some content`. -/
structure FSState where
  files : String → Option String
  dirs : List String

/-- One file of a fix response, `{filename, content}`. -/
structure FileEntry where
  filename : String
  content : String
deriving DecidableEq

/-- All slash-boundary ancestors of a directory (the directory included), as
created by `fs.mkdir(d, { recursive: true })`. -/
def ancestorsOf (d : String) : List String :=
  let parts := splitOnSlash d.data
  (List.range parts.length).map (fun i => String.mk (joinComps (parts.take (i + 1))))

def mkdirRecursive (fs : FSState) (d : String) : FSState :=
  { fs with dirs := ancestorsOf d ++ fs.dirs }

def writeFileFS (fs : FSState) (p content : String) : FSState :=
  { fs with files := fun q => if q = p then some content else fs.files q }

/-- The fix-application loop of `fixDeploymentErrors` (`src/debug.js` lines
495-504): each returned file is joined under the project root, its parent
directory is created recursively, and the file is overwritten with the given
content. -/
def applyFixes (projectDir : String) (files : List FileEntry) (fs : FSState) : FSState :=
  files.foldl
    (fun acc f =>
      let fp := pathJoin projectDir f.filename
      writeFileFS (mkdirRecursive acc (pathDirname fp)) fp f.content) fs

/-- One returned `{path, content}` record. -/
structure RelevantFile where
  path : String
  content : String
deriving DecidableEq

/-- Extractor state: the `filesMentioned` seen-set, the `relevantFiles`
output list, and the project-relative path of every `fs.readFile` call
performed so far, in order. -/
structure ExtState where
  seen : List String
  entries : List RelevantFile
  readsRel : List String
deriving DecidableEq

def nmChars : List Char := "node_modules".data

/-- The skip test of `src/debug.js` lines 553-557: candidates mentioning the
dependency-install directory, the Node internal-runtime prefix, or the bare
runtime module name are discarded. -/
def skipCandidate (c : String) : Bool :=
  hasSub nmChars c.data || strStartsWith c "internal/" || c == "module.js"

/-- Attempt to read the (already normalised) project-relative path `p`: skip
when already in the seen-set, otherwise record it as seen and, when readable,
read it and append a `RelevantFile` (an unreadable path is caught and
skipped).  This is the body shared by the `dist/` source-mapping block
(lines 565-580, whose `existsSync`-then-read pair collapses to one lookup
here) and the main read (lines 584-601). -/
def extractTry (projectDir : String) (fsys : String → Option String)
    (st : ExtState) (p : String) : ExtState :=
  if st.seen.contains p then st
  else
    let st2 : ExtState := { st with seen := p :: st.seen }
    match fsys (pathJoin projectDir p) with
    | some content =>
      { st2 with entries := st2.entries ++ [⟨p, content⟩],
                 readsRel := st2.readsRel ++ [p] }
    | none => st2

/-- Processing of one candidate by `extractRelevantFiles`: skip dependency and
runtime paths, normalise, read the mapped source path of a `dist/` path
first, then the path itself. -/
def extractStep (projectDir : String) (fsys : String → Option String)
    (st : ExtState) (cand : String) : ExtState :=
  if skipCandidate cand then st
  else
    let fp := normalizeFilePath cand projectDir
    let st1 :=
      if strStartsWith fp "dist/" then extractTry projectDir fsys st (distToSource fp)
      else st
    extractTry projectDir fsys st1 fp

/-- `extractRelevantFiles` over the candidate sequence. -/
def extractRelevantFiles (projectDir : String) (fsys : String → Option String)
    (cands : List String) : ExtState :=
  cands.foldl (extractStep projectDir fsys) ⟨[], [], []⟩

/-- Invariant maintained by the extractor: output paths are distinct and
dependency-free, every read was of a fresh path, and every returned content
is what the filesystem holds at the joined path. -/
structure ExtInv (projectDir : String) (fsys : String → Option String)
    (st : ExtState) : Prop where
  nodup_paths : (st.entries.map (·.path)).Nodup
  paths_seen : ∀ e ∈ st.entries, e.path ∈ st.seen
  nodup_reads : st.readsRel.Nodup
  reads_seen : ∀ r ∈ st.readsRel, r ∈ st.seen
  no_dep : ∀ e ∈ st.entries, ¬ occursIn nmChars e.path.data
  content_ok : ∀ e ∈ st.entries, fsys (pathJoin projectDir e.path) = some e.content

/-- Distinguished failure modes of the response-parsing step:
`malformedResponse` covers both the missing-JSON-substring throw (line 461)
and a `JSON.parse` failure (line 489); `emptyFixSet` is the
`files`-array-check throw (line 475). -/
inductive ParseErr where
  | malformedResponse : ParseErr
  | emptyFixSet : ParseErr
deriving DecidableEq

/-- The parsed `{summary, files}` object (`FixResult`). -/
structure FixResult where
  summary : Json
  files : List Json

/-- The response-parsing step of `fixDeploymentErrors` (lines 459-490):
extract the greedy brace-to-brace substring, `JSON.parse` it, default a falsy
`summary` to the placeholder, and require `files` to be a nonempty array. -/
def parseFixResponse (responseText : String) : Except ParseErr FixResult :=
  match extractJsonObject responseText with
  | none => .error .malformedResponse
  | some frag =>
    match jsonParse frag with
    | none => .error .malformedResponse
    | some j =>
      let summary :=
        match getField j "summary" with
        | some v => if jsTruthy v then v else Json.str "No summary provided"
        | none => Json.str "No summary provided"
      match getField j "files" with
      | some (Json.arr (f :: fs)) => .ok ⟨summary, f :: fs⟩
      | _ => .error .emptyFixSet

/-! ## Checksums (JavaScript 32-bit string hash) -/

/-- Wrap an integer into JavaScript's signed 32-bit range (the effect of
`| 0`-style coercion, i.e. `ToInt32`). -/
def toInt32 (n : Int) : Int := (n + 2 ^ 31) % 2 ^ 32 - 2 ^ 31

/-- One step of the shift-and-subtract string hash shared by
`calculateChecksum` (`src/debug.js` lines 244-252) and `calculateHash`
(`fix-registry.js` lines 279-291): `hash = ((hash << 5) - hash) + code`
followed by `hash = hash & hash`; `<<` coerces its result to 32 bits and the
final `&` coerces the sum. -/
def jsHashStep (h : Int) (c : Char) : Int := toInt32 (toInt32 (h * 32) - h + c.toNat)

def jsStringHashInt (s : String) : Int := s.data.foldl jsHashStep 0

/-- JavaScript's `n.toString(16)` for an integer value. -/
def intToHexJs (n : Int) : String :=
  if n < 0 then String.mk ('-' :: Nat.toDigits 16 n.natAbs)
  else String.mk (Nat.toDigits 16 n.toNat)

/-- `calculateChecksum` from `src/debug.js` lines 244-252. -/
def calculateChecksum (content : String) : String := intToHexJs (jsStringHashInt content)

/-! ## The retry loop (`main`, `src/debug.js` lines 77-222)

Deploy outcomes and fix outcomes are inputs of the model: `dr k` is the
result of the `k`-th executed `build+synth+deploy` command sequence (counted
from 0), and `fr k` is the outcome of the `k`-th invocation of
`fixDeploymentErrors` — `some (files, summary)` when it resolves, `none`
when it throws (missing credential, transport error, malformed response,
empty fix set).  `es k` is the error snippet recorded after the `k`-th
failed deploy.  Elided as count-irrelevant side effects: console/spinner
output, the `deployment-error-N.log` and `fix-history.json` writes, and the
file-overwrite pre-check of lines 89-119 (it only chmods/unlinks files). -/

/-- One entry of `fixHistory` (lines 133-144). -/
structure HistEntry where
  attempt : Nat
  snippet : String
  summary : String
  files : List (String × String)
deriving DecidableEq

structure LoopState where
  attempt : Nat
  lastErr : Bool
  success : Bool
  deployCount : Nat
  fixCount : Nat
  history : List HistEntry
deriving DecidableEq

def initLoopState : LoopState := ⟨0, false, false, 0, 0, []⟩

/-- One iteration of the `while` body (lines 84-191): bump the attempt
counter; when a previous error exists, invoke the fix step — a resolved fix
appends one history entry with filename/checksum pairs (lines 133-144), a
thrown fix is caught and appends nothing (lines 147-151); then run the
deploy sequence, recording success or a new `lastError`. -/
def loopIter (dr : Nat → Bool) (fr : Nat → Option (List FileEntry × String))
    (es : Nat → String) (s : LoopState) : LoopState :=
  let s1 : LoopState := { s with attempt := s.attempt + 1 }
  let s2 : LoopState :=
    if s1.lastErr then
      match fr s1.fixCount with
      | some (files, summary) =>
        { s1 with
          fixCount := s1.fixCount + 1,
          history := s1.history ++
            [{ attempt := s1.attempt,
               snippet := es (s1.deployCount - 1),
               summary := summary,
               files := files.map (fun f => (f.filename, calculateChecksum f.content)) }] }
      | none => { s1 with fixCount := s1.fixCount + 1 }
    else s1
  if dr s2.deployCount then
    { s2 with deployCount := s2.deployCount + 1, success := true }
  else
    { s2 with deployCount := s2.deployCount + 1, lastErr := true }

/-- `while (attempt < maxAttempts && !success)`, with the remaining allowed
attempts as fuel (the attempt counter increments once per iteration). -/
def runLoop (dr : Nat → Bool) (fr : Nat → Option (List FileEntry × String))
    (es : Nat → String) : Nat → LoopState → LoopState
  | 0, s => s
  | fuel + 1, s => if s.success then s else runLoop dr fr es fuel (loopIter dr fr es s)

/-- The whole retry loop of `main` starting from the initial state. -/
def runMain (maxAttempts : Nat) (dr : Nat → Bool)
    (fr : Nat → Option (List FileEntry × String)) (es : Nat → String) : LoopState :=
  runLoop dr fr es maxAttempts initLoopState

/-- The exit code `main` returns after the loop (lines 200-217). -/
def exitCode (s : LoopState) : Nat := if s.success then 0 else 1

/-- Number of `some` outcomes among the first `n` fix invocations. -/
def countFixSuccesses (fr : Nat → Option (List FileEntry × String)) (n : Nat) : Nat :=
  ((List.range n).filter (fun k => (fr k).isSome)).length

/-- An error record as built in the deploy catch (lines 176-180); fields that
JavaScript would leave `undefined` are the empty string here (the code only
reads them through `|| ''`). -/
structure ErrRecord where
  message : String
  stdout : String
  stderr : String
deriving DecidableEq

/-- `errorText` of line 334. -/
def errText (e : ErrRecord) : String := e.stdout ++ "\n" ++ e.stderr

/-- The fenced code blocks of the relevant files (lines 355-359). -/
def filesContentBlock (files : List RelevantFile) : String :=
  String.intercalate "\n\n"
    (files.map (fun f => "```typescript\n// " ++ f.path ++ "\n" ++ f.content ++ "\n```"))

/-- The diagram context section (lines 361-363). -/
def diagramContext (plantUml : String) : String :=
  if plantUml ≠ "" then
    "\nThe original PlantUML diagram that was used to generate this CDK project is:\n\n```\n"
      ++ plantUml ++ "\n```"
  else "\nNote: The original PlantUML diagram is not available."

/-- One prior-attempt paragraph of the history context (lines 369-375). -/
def historyEntryContext (h : HistEntry) : String :=
  "\nAttempt " ++ toString h.attempt ++ ":\n- Error: " ++ h.snippet
    ++ "\n- Summary: " ++ (if h.summary ≠ "" then h.summary else "No summary available")
    ++ "\n- Files modified: " ++ String.intercalate ", " (h.files.map (·.1)) ++ "\n"

/-- The history context of lines 366-378. -/
def fixHistoryContext (hist : List HistEntry) : String :=
  if hist.isEmpty then ""
  else
    "\nPrevious fix attempts:\n" ++ String.join (hist.map historyEntryContext)
      ++ "\nIMPORTANT: Previous approaches did NOT resolve the issue, so please try a different approach."

/-- The prompt of lines 380-415 (the long literal instruction text is kept
structurally; the audit properties only require the prompt to be embedded in
the record as built). -/
def buildPrompt (plantUml : String) (hist : List HistEntry)
    (files : List RelevantFile) (errorText : String) : String :=
  "\nI'm trying to deploy an AWS CDK project but encountering errors. I need you to fix the code in the affected files.\n\n"
    ++ diagramContext plantUml ++ "\n\n"
    ++ fixHistoryContext hist ++ "\n\n"
    ++ "Here are the files that appear to be related to the errors:\n\n"
    ++ filesContentBlock files ++ "\n\n"
    ++ "The deployment error is:\n\n```\n" ++ errorText ++ "\n```\n\n"
    ++ "Please identify the issues and provide corrected versions of the files. \n\n"
    ++ (if hist.length > 0 then
        "The previous approaches failed, so you need to try something different this time."
      else "")
    ++ "\n\nIMPORTANT: Format your response as a JSON object with the following structure:\n\x7b\n  \"summary\": \"Brief explanation of what changes you made and why they should fix the issue\",\n  \"files\": [\n    \x7b\n      \"filename\": \"relative/path/to/file.ts\",\n      \"content\": \"// The complete corrected file content here...\"\n    \x7d,\n    ... additional files if needed ...\n  ]\n\x7d\n\nThe summary should be a concise explanation in plain English that describes what was changed and why.\nOnly include files that need to be changed. DO NOT provide additional explanations outside of the JSON structure.\n"

/-- The audit record of lines 418-430, extended along the way with
`rawResponse`, `parseError`, `jsonFragment`, `apiError`, `response` and
`success`.  The wall-clock `timestamp` field is not modelled (the embedding
has no clock). -/
structure AuditData where
  attempt : Nat
  errMessage : String
  errStdout : String
  errStderr : String
  relevantPaths : List String
  prompt : String
  response : Option FixResult
  rawResponse : Option String
  parseError : Option String
  jsonFragment : Option String
  apiError : Option String
  success : Bool

/-- Errors thrown out of `fixDeploymentErrors`: the missing-credential throw
of line 330 and the uniform re-throw of the outer catch (line 522). -/
inductive FixErr where
  | missingCredential : FixErr
  | failedToGetFixes : FixErr
deriving DecidableEq

/-- The fallback of lines 338-349: when no relevant files were identified,
try to read `lib/stack.ts`. -/
def withFallback (projectDir : String) (fsys : String → Option String)
    (extracted : List RelevantFile) : List RelevantFile :=
  if extracted.isEmpty then
    match fsys (pathJoin projectDir "lib/stack.ts") with
    | some content => [⟨"lib/stack.ts", content⟩]
    | none => []
  else extracted

/-- The write loop of lines 495-504 over the parsed `result.files` entries.
Writing stops at the first entry whose `filename` or `content` is not a
string — there JavaScript's `path.join`/`fs.writeFile` throws a `TypeError`
into the outer catch — and the boolean reports whether the loop completed. -/
def applyJsonFiles (projectDir : String) : List Json → FSState → FSState × Bool
  | [], fs => (fs, true)
  | f :: rest, fs =>
    match getField f "filename", getField f "content" with
    | some (Json.str name), some (Json.str content) =>
      let fp := pathJoin projectDir name
      applyJsonFiles projectDir rest
        (writeFileFS (mkdirRecursive fs (pathDirname fp)) fp content)
    | _, _ => (fs, false)

structure FixRunResult where
  result : Except FixErr (List Json × Json)
  audits : List AuditData
  fs : FSState

/-- `fixDeploymentErrors` (`src/debug.js` lines 328-523) with its effects
reified: `apiKey` is `ANTHROPIC_API_KEY`, `transport` the outcome of the
`axios.post` call (error message, or the response text
`response.data.content[0].text`), `cands` the candidate paths the error-text
regex scan produced, and `fst` the filesystem.  `audits` lists the records
passed to `logAudit` in call order (`logAudit` itself catches filesystem
errors, so being invoked is what persisting an audit record means here);
note the inner parse catch of lines 481-490 logs once and re-throws into the
outer catch of lines 514-523, which logs again.  The `parseError` field
holds a fixed marker for the data-dependent `SyntaxError` message of
`JSON.parse`. -/
def fixDeploymentErrorsModel (apiKey : Option String) (projectDir plantUml : String)
    (err : ErrRecord) (hist : List HistEntry) (cands : List String)
    (transport : Except String String) (fst : FSState) : FixRunResult :=
  if apiKey.isNone then
    { result := .error .missingCredential, audits := [], fs := fst }
  else
    let relevantFiles := withFallback projectDir fst.files
      (extractRelevantFiles projectDir fst.files cands).entries
    let prompt := buildPrompt plantUml hist relevantFiles (errText err)
    let base : AuditData :=
      { attempt := hist.length + 1,
        errMessage := err.message, errStdout := err.stdout, errStderr := err.stderr,
        relevantPaths := relevantFiles.map (·.path),
        prompt := prompt, response := none, rawResponse := none,
        parseError := none, jsonFragment := none, apiError := none, success := false }
    match transport with
    | .error emsg =>
      { result := .error .failedToGetFixes,
        audits := [{ base with apiError := some emsg }], fs := fst }
    | .ok responseText =>
      let base := { base with rawResponse := some responseText }
      match extractJsonObject responseText with
      | none =>
        { result := .error .failedToGetFixes,
          audits := [{ base with
            apiError := some "Could not find properly formatted JSON response from Claude" }],
          fs := fst }
      | some frag =>
        match jsonParse frag with
        | none =>
          let a1 := { base with parseError := some "SyntaxError", jsonFragment := some frag }
          { result := .error .failedToGetFixes,
            audits := [a1,
              { a1 with apiError := some "Invalid JSON format in Claude's response" }],
            fs := fst }
        | some j =>
          let summary :=
            match getField j "summary" with
            | some v => if jsTruthy v then v else Json.str "No summary provided"
            | none => Json.str "No summary provided"
          match getField j "files" with
          | some (Json.arr (f :: fsx)) =>
            let withResp := { base with response := some ⟨summary, f :: fsx⟩ }
            match applyJsonFiles projectDir (f :: fsx) fst with
            | (fs2, true) =>
              { result := .ok (f :: fsx, summary),
                audits := [{ withResp with success := true }], fs := fs2 }
            | (fs2, false) =>
              { result := .error .failedToGetFixes,
                audits := [{ withResp with apiError := some "TypeError" }], fs := fs2 }
          | _ =>
            let a1 := { base with
              parseError := some "No files included in the response",
              jsonFragment := some frag }
            { result := .error .failedToGetFixes,
              audits := [a1,
                { a1 with apiError := some "Invalid JSON format in Claude's response" }],
              fs := fst }

/-! ## CLI `--max-attempts` parsing (`src/debug.js` lines 19, 30, 39) -/

def jsSpace (c : Char) : Bool :=
  c = ' ' || c = '\t' || c = '\n' || c = '\r' || c = '\x0b' || c = '\x0c'

def digitVal (c : Char) : Nat := c.toNat - '0'.toNat

def decDigitsVal (ds : List Char) : Nat := ds.foldl (fun acc c => acc * 10 + digitVal c) 0

def hexDigitsVal (ds : List Char) : Nat :=
  ds.foldl (fun acc c => acc * 16 + (hexDigitVal c).getD 0) 0

/-- JavaScript's `parseInt(s)` with the radix unspecified: skip whitespace,
optional sign, optional hex prefix, then the longest run of digits; `NaN`
(`none`) when no digit is consumed. -/
def jsParseInt (s : String) : Option Int :=
  let cs := s.data.dropWhile jsSpace
  let signAndRest : Int × List Char :=
    match cs with
    | '-' :: r => (-1, r)
    | '+' :: r => (1, r)
    | r => (1, r)
  let sign := signAndRest.1
  match signAndRest.2 with
  | '0' :: x :: r =>
    if x = 'x' ∨ x = 'X' then
      let ds := r.takeWhile (fun c => (hexDigitVal c).isSome)
      if ds.isEmpty then none else some (sign * hexDigitsVal ds)
    else
      let ds := ('0' :: x :: r).takeWhile Char.isDigit
      if ds.isEmpty then none else some (sign * decDigitsVal ds)
  | cs1 =>
    let ds := cs1.takeWhile Char.isDigit
    if ds.isEmpty then none else some (sign * decDigitsVal ds)

/-- `const maxAttempts = parseInt(options.maxAttempts) || MAX_FIX_ATTEMPTS`
of line 39 with `MAX_FIX_ATTEMPTS = 5` (line 19): `NaN` and `0` are falsy
and fall back to the default. -/
def effectiveMaxAttempts (s : String) : Int :=
  match jsParseInt s with
  | none => 5
  | some n => if n = 0 then 5 else n

/-! ## The fix registry's error fingerprints (`fix-registry.js` lines 240-303) -/

/-- Generic left-to-right global regex replacement (`String.replace` with the
`g` flag): at each position, if the matcher accepts a match it returns the
remainder, the replacement is emitted and scanning resumes after the match;
otherwise the character is copied.  The fuel is the input length, which
bounds the number of scan steps. -/
def replaceScan (m : List Char → Option (List Char)) (repl : List Char) :
    Nat → List Char → List Char
  | 0, cs => cs
  | _ + 1, [] => []
  | fuel + 1, c :: cs =>
    match m (c :: cs) with
    | some rest => repl ++ replaceScan m repl fuel rest
    | none => c :: replaceScan m repl fuel cs

def applyReplace (m : List Char → Option (List Char)) (repl : String)
    (cs : List Char) : List Char :=
  replaceScan m repl.data cs.length cs

def expectCh (c : Char) : List Char → Option (List Char)
  | x :: r => if x = c then some r else none
  | [] => none

/-- Exactly `n` characters satisfying `p` (a counted regex atom). -/
def expectExact (p : Char → Bool) : Nat → List Char → Option (List Char)
  | 0, cs => some cs
  | n + 1, c :: cs => if p c then expectExact p n cs else none
  | _ + 1, [] => none

/-- One or more characters satisfying `p`, greedily (a `+` regex atom whose
follower cannot satisfy `p`). -/
def expectMany1 (p : Char → Bool) (cs : List Char) : Option (List Char) :=
  match cs with
  | c :: r => if p c then some (r.dropWhile p) else none
  | [] => none

def seqMatch : List (List Char → Option (List Char)) → List Char → Option (List Char)
  | [], cs => some cs
  | m :: ms, cs =>
    match m cs with
    | some r => seqMatch ms r
    | none => none

def isHexDigit (c : Char) : Bool := (hexDigitVal c).isSome

/-- Case-insensitive literal match (the `i` regex flag). -/
def matchCaseInsensitive : List Char → List Char → Option (List Char)
  | [], cs => some cs
  | p :: ps, c :: cs => if c.toLower = p.toLower then matchCaseInsensitive ps cs else none
  | _ :: _, [] => none

/-- Case-sensitive literal match; an empty literal is declined (the source
only builds this regex from `process.cwd()`, which is never empty). -/
def matchLiteral (lit : List Char) (cs : List Char) : Option (List Char) :=
  if lit.isEmpty then none
  else if listStarts lit cs then some (cs.drop lit.length) else none

/-- The ISO-timestamp regex of `cleanErrorText` line 261. -/
def matchTimestamp : List Char → Option (List Char) :=
  seqMatch [expectExact Char.isDigit 4, expectCh '-', expectExact Char.isDigit 2,
    expectCh '-', expectExact Char.isDigit 2, expectCh 'T',
    expectExact Char.isDigit 2, expectCh ':', expectExact Char.isDigit 2,
    expectCh ':', expectExact Char.isDigit 2, expectCh '.',
    expectMany1 Char.isDigit, expectCh 'Z']

/-- The UUID regex of line 263 (case-insensitive hex). -/
def matchUuid : List Char → Option (List Char) :=
  seqMatch [expectExact isHexDigit 8, expectCh '-', expectExact isHexDigit 4,
    expectCh '-', expectExact isHexDigit 4, expectCh '-',
    expectExact isHexDigit 4, expectCh '-', expectExact isHexDigit 12]

def isReqIdChar (c : Char) : Bool :=
  c.isDigit || ('a' ≤ c && c ≤ 'z') || ('A' ≤ c && c ≤ 'Z') || c = '-'

/-- The request-id regex of line 265 (case-insensitive). -/
def matchRequestId (cs : List Char) : Option (List Char) :=
  match matchCaseInsensitive "request id: ".data cs with
  | some r => expectMany1 isReqIdChar r
  | none => none

/-- The `.ts(line,col)` regex of line 269. -/
def matchTsLineCol : List Char → Option (List Char) :=
  seqMatch [matchLiteral ".ts(".data, expectMany1 Char.isDigit, expectCh ',',
    expectMany1 Char.isDigit, expectCh ')']

/-- Collapse every whitespace run into a single space (line 271). -/
def collapseWs : List Char → List Char
  | [] => []
  | [c] => if jsSpace c then [' '] else [c]
  | c :: d :: rest =>
    if jsSpace c then
      if jsSpace d then collapseWs (d :: rest)
      else ' ' :: collapseWs (d :: rest)
    else c :: collapseWs (d :: rest)

def trimJs (cs : List Char) : List Char :=
  ((cs.dropWhile jsSpace).reverse.dropWhile jsSpace).reverse

/-- `cleanErrorText` from `fix-registry.js` lines 258-273, with the process
working directory as an explicit argument (the source builds a literal regex
from `process.cwd()`). -/
def cleanErrorText (cwd : String) (text : String) : String :=
  let s1 := applyReplace matchTimestamp "TIMESTAMP" text.data
  let s2 := applyReplace matchUuid "UUID" s1
  let s3 := applyReplace matchRequestId "request id: REQUEST_ID" s2
  let s4 := applyReplace (matchLiteral cwd.data) "PROJECT_DIR" s3
  let s5 := applyReplace matchTsLineCol ".ts(LINE,COL)" s4
  String.mk (trimJs (collapseWs s5))

/-- `calculateHash` from `fix-registry.js` lines 279-291; textually the same
hash as `calculateChecksum` and its explicit empty-string early return
coincides with the fold. -/
def calculateHash (text : String) : String := intToHexJs (jsStringHashInt text)

/-- The `{hash, cleanedText}` object returned by `generateErrorHash`
(lines 240-253).  `alloc` models JavaScript object identity: each call
constructs a fresh object, so results of separate calls are distinct
references. -/
structure HashFingerprint where
  alloc : Nat
  hash : String
  cleanedText : String
deriving DecidableEq

def generateErrorHash (cwd : String) (allocId : Nat) (e : ErrRecord) : HashFingerprint :=
  let errorText := e.stderr ++ "\n" ++ e.stdout ++ "\n" ++ e.message
  let cleaned := cleanErrorText cwd errorText
  ⟨allocId, calculateHash cleaned, cleaned⟩

/-- JavaScript `===` on two object values: true exactly when both are the
same reference, i.e. the same allocation. -/
def jsStrictEqObj (a b : HashFingerprint) : Bool := a.alloc == b.alloc

/-- `isSameErrorByHash` from `fix-registry.js` lines 296-303: after the
null guard it compares the two freshly constructed result objects of
`generateErrorHash` with `===`. -/
def isSameErrorByHash (cwd : String) : Option ErrRecord → Option ErrRecord → Bool
  | none, _ => false
  | _, none => false
  | some e1, some e2 =>
    jsStrictEqObj (generateErrorHash cwd 0 e1) (generateErrorHash cwd 1 e2)

/-- Generic boolean initial-segment test on lists. -/
def listFront {α : Type} [BEq α] : List α → List α → Bool
  | [], _ => true
  | _ :: _, [] => false
  | a :: as, b :: bs => a == b && listFront as bs

/-- The resolved components of a path string. -/
def compsOf (s : String) : List (List Char) := resolveComps (splitOnSlash s.data)

/-- Directory containment: `p` lies inside the directory `root` exactly when
`root`'s resolved components are an initial segment of `p`'s. -/
def liesInside (p root : String) : Bool := listFront (compsOf root) (compsOf p)

/-! ## Lemmas -/

theorem listStarts_iff (t s : List Char) : listStarts t s = true ↔ ∃ u, s = t ++ u := by
  induction t generalizing s with
  | nil => simp [listStarts]
  | cons a as ih =>
    cases s with
    | nil => simp [listStarts]
    | cons b bs =>
      simp only [listStarts, Bool.and_eq_true, beq_iff_eq, ih]
      constructor
      · rintro ⟨rfl, u, rfl⟩; exact ⟨u, rfl⟩
      · rintro ⟨u, h⟩
        injection h with h1 h2
        exact ⟨h1.symm, u, h2⟩

theorem hasSub_iff (t s : List Char) : hasSub t s = true ↔ occursIn t s := by
  induction s with
  | nil =>
    simp only [hasSub, listStarts_iff, occursIn]
    constructor
    · rintro ⟨u, h⟩
      exact ⟨[], u, by simpa using h⟩
    · rintro ⟨a, b, h⟩
      obtain ⟨rfl, rfl, rfl⟩ : a = [] ∧ t = [] ∧ b = [] := by simpa using h.symm
      exact ⟨[], rfl⟩
  | cons c cs ih =>
    simp only [hasSub, Bool.or_eq_true, listStarts_iff, ih, occursIn]
    constructor
    · rintro (⟨u, h⟩ | ⟨a, b, h⟩)
      · exact ⟨[], u, by simpa using h⟩
      · exact ⟨c :: a, b, by simp [h]⟩
    · rintro ⟨a, b, h⟩
      cases a with
      | nil => exact Or.inl ⟨b, by simpa using h⟩
      | cons x xs =>
        injection h with h1 h2
        exact Or.inr ⟨xs, b, h2⟩

theorem occursIn_length_le {t s : List Char} (h : occursIn t s) : t.length ≤ s.length := by
  rcases h with ⟨a, b, rfl⟩
  simp only [List.length_append]
  omega

theorem occursIn_refl (s : List Char) : occursIn s s := ⟨[], [], by simp⟩

theorem occursIn_trans {t u s : List Char} (h1 : occursIn t u) (h2 : occursIn u s) :
    occursIn t s := by
  rcases h1 with ⟨a, b, rfl⟩
  rcases h2 with ⟨c, d, rfl⟩
  exact ⟨c ++ a, b ++ d, by simp⟩

theorem occursIn_of_front {t s u : List Char} (h : s = t ++ u) : occursIn t s :=
  ⟨[], u, by simp [h]⟩

theorem occursIn_of_back {t s u : List Char} (h : s = u ++ t) : occursIn t s :=
  ⟨u, [], by simp [h]⟩

theorem occursIn_take {t s : List Char} (n : Nat) (h : occursIn t (s.take n)) :
    occursIn t s := by
  have := occursIn_of_front (t := s.take n) (s := s) (u := s.drop n) (by simp)
  exact occursIn_trans h this

theorem occursIn_drop {t s : List Char} (n : Nat) (h : occursIn t (s.drop n)) :
    occursIn t s := by
  have := occursIn_of_back (t := s.drop n) (s := s) (u := s.take n) (by simp)
  exact occursIn_trans h this

/-- Decomposition of an occurrence of `t` inside `a ++ b`: either it sits in
`a`, sits in `b`, or straddles the boundary with a nonempty part on either
side. -/
theorem occursIn_append {t a b : List Char} (h : occursIn t (a ++ b)) :
    occursIn t a ∨ occursIn t b ∨
      ∃ t1 t2, t = t1 ++ t2 ∧ t1 ≠ [] ∧ t2 ≠ [] ∧
        (∃ a', a = a' ++ t1) ∧ (∃ b', b = t2 ++ b') := by
  rcases h with ⟨s, u, hsu⟩
  have h0 : a ++ b = s ++ (t ++ u) := by simpa [List.append_assoc] using hsu
  rcases List.append_eq_append_iff.mp h0 with ⟨k, hk1, hk2⟩ | ⟨k, hk1, hk2⟩
  · -- s = a ++ k, b = k ++ t ++ u
    right; left
    exact ⟨k, u, by simpa [List.append_assoc] using hk2⟩
  · -- a = s ++ k, t ++ u = k ++ b
    rcases List.append_eq_append_iff.mp hk2 with ⟨m, hm1, hm2⟩ | ⟨m, hm1, hm2⟩
    · -- k = t ++ m, u = m ++ b
      left
      exact ⟨s, m, by simp [hk1, hm1]⟩
    · -- t = k ++ m, b = m ++ u
      cases hk : k with
      | nil =>
        right; left
        subst hk
        simp only [List.nil_append] at hm1
        exact ⟨[], u, by simp [hm2, ← hm1]⟩
      | cons x xs =>
        cases hm : m with
        | nil =>
          left
          subst hm
          simp only [List.append_nil] at hm1
          exact ⟨s, [], by simp [hk1, ← hm1, ← hk]⟩
        | cons y ys =>
          right; right
          refine ⟨k, m, hm1, by simp [hk], by simp [hm], ⟨s, hk1⟩, ⟨u, hm2⟩⟩

theorem occursIn_singleton {t : List Char} {c : Char} (h : occursIn t [c]) :
    t = [] ∨ t = [c] := by
  rcases h with ⟨a, b, hab⟩
  cases a with
  | nil =>
    cases t with
    | nil => exact Or.inl rfl
    | cons x xs =>
      injection hab with h1 h2
      rcases List.append_eq_nil.mp h2.symm with ⟨rfl, rfl⟩
      exact Or.inr (by simp [h1])
  | cons y ys =>
    injection hab with h1 h2
    have : ys ++ t ++ b = [] := h2.symm
    rcases List.append_eq_nil.mp this with ⟨h3, rfl⟩
    rcases List.append_eq_nil.mp h3 with ⟨rfl, rfl⟩
    exact Or.inl rfl

theorem mem_of_occursIn {t s : List Char} {c : Char} (hc : c ∈ t) (h : occursIn t s) :
    c ∈ s := by
  rcases h with ⟨a, b, rfl⟩
  simp [hc]

/-! ## Path model (Node.js posix `path` module)

`src/debug.js` runs on the posix `path` flavour: an absolute path starts with
`'/'`, segments are separated by `'/'`. -/

theorem splitOnSlash_ne_nil (cs : List Char) : splitOnSlash cs ≠ [] := by
  cases cs with
  | nil => simp [splitOnSlash]
  | cons c rest =>
    simp only [splitOnSlash]
    by_cases h : c = '/'
    · simp [h]
    · simp only [if_neg h]
      cases splitOnSlash rest <;> simp

theorem joinComps_splitOnSlash (cs : List Char) : joinComps (splitOnSlash cs) = cs := by
  induction cs with
  | nil => rfl
  | cons c rest ih =>
    simp only [splitOnSlash]
    by_cases h : c = '/'
    · subst h
      simp only [if_pos rfl]
      cases hsplit : splitOnSlash rest with
      | nil => exact absurd hsplit (splitOnSlash_ne_nil rest)
      | cons p ps =>
        rw [hsplit] at ih
        simpa [joinComps] using ih
    · simp only [if_neg h]
      cases hsplit : splitOnSlash rest with
      | nil => exact absurd hsplit (splitOnSlash_ne_nil rest)
      | cons p ps =>
        rw [hsplit] at ih
        cases ps with
        | nil => simpa [joinComps] using ih
        | cons q ps' =>
          simp only [joinComps] at ih ⊢
          simpa using ih

theorem splitOnSlash_head_front (cs : List Char) :
    ∀ p ps, splitOnSlash cs = p :: ps → ∃ u, cs = p ++ u := by
  induction cs with
  | nil =>
    intro p ps h
    simp only [splitOnSlash] at h
    injection h with h1 _
    exact ⟨[], by simp [← h1]⟩
  | cons c rest ih =>
    intro p ps h
    simp only [splitOnSlash] at h
    by_cases hc : c = '/'
    · rw [if_pos hc] at h
      injection h with h1 _
      exact ⟨c :: rest, by simp [← h1]⟩
    · rw [if_neg hc] at h
      cases hsplit : splitOnSlash rest with
      | nil => exact absurd hsplit (splitOnSlash_ne_nil rest)
      | cons q qs =>
        rw [hsplit] at h
        injection h with h1 _
        rcases ih q qs hsplit with ⟨u, hu⟩
        exact ⟨u, by simp [← h1, hu]⟩

theorem splitOnSlash_mem_occursIn (cs : List Char) :
    ∀ p ∈ splitOnSlash cs, occursIn p cs := by
  induction cs with
  | nil =>
    intro p hp
    simp only [splitOnSlash, List.mem_singleton] at hp
    exact ⟨[], [], by simp [hp]⟩
  | cons c rest ih =>
    intro p hp
    simp only [splitOnSlash] at hp
    by_cases hc : c = '/'
    · rw [if_pos hc] at hp
      rcases List.mem_cons.mp hp with rfl | hmem
      · exact ⟨[], c :: rest, by simp⟩
      · exact occursIn_drop 1 (by simpa using ih p hmem)
    · rw [if_neg hc] at hp
      cases hsplit : splitOnSlash rest with
      | nil => exact absurd hsplit (splitOnSlash_ne_nil rest)
      | cons q qs =>
        rw [hsplit] at hp
        rcases List.mem_cons.mp hp with rfl | hmem
        · rcases splitOnSlash_head_front rest q qs hsplit with ⟨u, hu⟩
          exact occursIn_of_front (u := u) (by simp [hu])
        · have : p ∈ splitOnSlash rest := by rw [hsplit]; exact List.mem_cons_of_mem _ hmem
          exact occursIn_drop 1 (by simpa using ih p this)

/-- Occurrence of a slash-free nonempty segment in a joined path lies within a
single component. -/
theorem occursIn_joinComps {t : List Char} (hne : t ≠ []) (hs : '/' ∉ t) :
    ∀ parts, occursIn t (joinComps parts) → ∃ p ∈ parts, occursIn t p := by
  intro parts
  induction parts with
  | nil =>
    intro h
    have := occursIn_length_le h
    simp only [joinComps, List.length_nil, Nat.le_zero, List.length_eq_zero] at this
    exact absurd this hne
  | cons p ps ih =>
    intro h
    cases ps with
    | nil => exact ⟨p, by simp, by simpa [joinComps] using h⟩
    | cons q ps' =>
      simp only [joinComps] at h
      rcases occursIn_append h with hin | hin | ⟨t1, t2, rfl, ht1, ht2, _, b', hb'⟩
      · exact ⟨p, by simp, hin⟩
      · have h2 : occursIn t (['/'] ++ joinComps (q :: ps')) := by simpa using hin
        rcases occursIn_append h2 with hsl | hin2 | ⟨t1, t2, rfl, ht1, ht2, ⟨a', ha'⟩, _⟩
        · rcases occursIn_singleton hsl with rfl | rfl
          · exact absurd rfl hne
          · exact absurd (by simp) hs
        · rcases ih hin2 with ⟨r, hr, hocc⟩
          exact ⟨r, List.mem_cons_of_mem _ hr, hocc⟩
        · exfalso
          have hlen : a'.length + t1.length = 1 := by
            have := congrArg List.length ha'
            simpa using this.symm
          have ht1len : 1 ≤ t1.length := by
            cases t1 with
            | nil => exact absurd rfl ht1
            | cons _ _ => simp
          have ha0 : a' = [] := List.length_eq_zero.mp (by omega)
          subst ha0
          have heq : t1 = ['/'] := by simpa using ha'.symm
          apply hs
          rw [List.mem_append]
          exact Or.inl (by rw [heq]; simp)
      · exfalso
        apply hs
        cases t2 with
        | nil => exact absurd rfl ht2
        | cons x xs =>
          injection hb' with hx _
          simp [← hx]

theorem resolveComps_foldl_mem (l : List (List Char)) :
    ∀ (acc : List (List Char)) x,
      x ∈ l.foldl
        (fun acc part =>
          if part = [] ∨ part = ['.'] then acc
          else if part = ['.', '.'] then acc.dropLast
          else acc ++ [part]) acc →
      x ∈ acc ∨ x ∈ l := by
  induction l with
  | nil => intro acc x h; exact Or.inl (by simpa using h)
  | cons a as ih =>
    intro acc x h
    simp only [List.foldl_cons] at h
    rcases ih _ x h with hx | hx
    · by_cases h1 : a = [] ∨ a = ['.']
      · rw [if_pos h1] at hx; exact Or.inl hx
      · rw [if_neg h1] at hx
        by_cases h2 : a = ['.', '.']
        · rw [if_pos h2] at hx
          exact Or.inl ((List.dropLast_sublist acc).mem hx)
        · rw [if_neg h2] at hx
          rcases List.mem_append.mp hx with hx | hx
          · exact Or.inl hx
          · exact Or.inr (by simp [List.mem_singleton.mp hx])
    · exact Or.inr (List.mem_cons_of_mem _ hx)

theorem resolveComps_mem {parts : List (List Char)} {x : List Char}
    (h : x ∈ resolveComps parts) : x ∈ parts := by
  rcases resolveComps_foldl_mem parts [] x h with hx | hx
  · simp at hx
  · exact hx

theorem relativeComps_mem {f t : List (List Char)} {x : List Char} (h : x ∈ relativeComps f t) :
    x = ['.', '.'] ∨ x ∈ t := by
  rcases List.mem_append.mp h with hx | hx
  · exact Or.inl (List.eq_of_mem_replicate hx)
  · exact Or.inr ((List.drop_sublist _ t).mem hx)

theorem strEndsWith_iff (s suf : String) :
    strEndsWith s suf = true ↔ ∃ u, s.data = u ++ suf.data := by
  unfold strEndsWith
  rw [listStarts_iff]
  constructor
  · rintro ⟨w, hw⟩
    refine ⟨w.reverse, ?_⟩
    have := congrArg List.reverse hw
    simpa using this
  · rintro ⟨u, hu⟩
    exact ⟨u.reverse, by simp [hu]⟩

theorem dropTrailingSlashes_front (cs : List Char) :
    ∃ u, cs = dropTrailingSlashes cs ++ u := by
  refine ⟨(cs.reverse.takeWhile (· = '/')).reverse, ?_⟩
  unfold dropTrailingSlashes
  conv_lhs => rw [← List.reverse_reverse cs,
    ← List.takeWhile_append_dropWhile (p := (· = '/')) (l := cs.reverse)]
  rw [List.reverse_append]

theorem occursIn_dotdot_false {bad : List Char} (hne : bad ≠ []) (hdot : '.' ∉ bad) :
    ¬ occursIn bad ['.', '.'] := by
  intro h
  rcases List.exists_mem_of_ne_nil bad hne with ⟨c, hc⟩
  have : c ∈ ['.', '.'] := mem_of_occursIn hc h
  have : c = '.' := by simpa using this
  exact hdot (this ▸ hc)

theorem pathBasename_no_sub {bad : List Char} {s : String}
    (h : ¬ occursIn bad s.data) : ¬ occursIn bad (pathBasename s).data := by
  intro hocc
  apply h
  simp only [pathBasename] at hocc
  have hne := splitOnSlash_ne_nil (dropTrailingSlashes s.data)
  rw [List.getLast?_eq_getLast_of_ne_nil hne] at hocc
  have hmem := List.getLast_mem hne
  have h1 : occursIn bad (dropTrailingSlashes s.data) :=
    occursIn_trans (by simpa using hocc) (splitOnSlash_mem_occursIn _ _ hmem)
  rcases dropTrailingSlashes_front s.data with ⟨u, hu⟩
  exact occursIn_trans h1 (occursIn_of_front hu)

theorem pathRelative_no_sub {bad : List Char} {base target : String}
    (hne : bad ≠ []) (hslash : '/' ∉ bad) (hdot : '.' ∉ bad)
    (h : ¬ occursIn bad target.data) : ¬ occursIn bad (pathRelative base target).data := by
  intro hocc
  unfold pathRelative at hocc
  rcases occursIn_joinComps hne hslash _ hocc with ⟨p, hp, hoccp⟩
  rcases relativeComps_mem hp with rfl | hp2
  · exact occursIn_dotdot_false hne hdot hoccp
  · have hp3 := resolveComps_mem hp2
    exact h (occursIn_trans hoccp (splitOnSlash_mem_occursIn _ _ hp3))

theorem normalizeFilePath_no_sub {bad : List Char} {filePath projectDir : String}
    (hne : bad ≠ []) (hslash : '/' ∉ bad) (hdot : '.' ∉ bad)
    (h : ¬ occursIn bad filePath.data) :
    ¬ occursIn bad (normalizeFilePath filePath projectDir).data := by
  unfold normalizeFilePath
  by_cases h1 : isAbsolutePath filePath
  · rw [if_pos h1]
    by_cases h2 : strStartsWith filePath projectDir
    · rw [if_pos h2]
      exact pathRelative_no_sub hne hslash hdot h
    · rw [if_neg h2]
      exact pathBasename_no_sub h
  · rw [if_neg h1]
    exact h

theorem occursIn_append_ts {bad core : List Char} (hdot : '.' ∉ bad)
    (hlen : 2 < bad.length) (h : occursIn bad (core ++ ['.', 't', 's'])) :
    occursIn bad core := by
  rcases occursIn_append h with hin | hin | ⟨t1, t2, heq, ht1, ht2, _, b', hb'⟩
  · exact hin
  · exfalso
    have h2 : occursIn bad (['.'] ++ ['t', 's']) := by simpa using hin
    rcases occursIn_append h2 with hd | hts | ⟨t1, t2, heq, ht1, ht2, ⟨a', ha'⟩, _⟩
    · rcases occursIn_singleton hd with rfl | rfl
      · simp at hlen
      · simp at hlen
    · have := occursIn_length_le hts
      simp at this
      omega
    · have hlen1 : a'.length + t1.length = 1 := by
        have := congrArg List.length ha'
        simpa using this.symm
      have ht1len : 1 ≤ t1.length := by
        cases t1 with
        | nil => exact absurd rfl ht1
        | cons _ _ => simp
      have ha0 : a' = [] := List.length_eq_zero.mp (by omega)
      subst ha0
      have heq1 : t1 = ['.'] := by simpa using ha'.symm
      apply hdot
      rw [heq, List.mem_append]
      exact Or.inl (by rw [heq1]; simp)
  · exfalso
    apply hdot
    cases t2 with
    | nil => exact absurd rfl ht2
    | cons x xs =>
      injection hb' with hx _
      rw [heq, List.mem_append]
      exact Or.inr (by rw [← hx]; simp)

theorem replaceSuffix_ts_no_sub {bad : List Char} {s suf : String}
    (hdot : '.' ∉ bad) (hlen : 2 < bad.length) (h : ¬ occursIn bad s.data) :
    ¬ occursIn bad (replaceSuffix s suf ".ts").data := by
  unfold replaceSuffix
  by_cases he : strEndsWith s suf
  · rw [if_pos he]
    intro hocc
    have hocc2 : occursIn bad
        (s.data.take (s.data.length - suf.data.length) ++ ['.', 't', 's']) := hocc
    exact h (occursIn_take _ (occursIn_append_ts hdot hlen hocc2))
  · rw [if_neg he]
    exact h

theorem distToSource_no_sub {bad : List Char} {p : String}
    (hdot : '.' ∉ bad) (hlen : 2 < bad.length) (h : ¬ occursIn bad p.data) :
    ¬ occursIn bad (distToSource p).data := by
  unfold distToSource
  apply replaceSuffix_ts_no_sub hdot hlen
  apply replaceSuffix_ts_no_sub hdot hlen
  by_cases hs : strStartsWith p "dist/"
  · rw [if_pos hs]
    intro hocc
    exact h (occursIn_drop 5 hocc)
  · rw [if_neg hs]
    exact h

theorem listStarts_length_le {t s : List Char} (h : listStarts t s = true) :
    t.length ≤ s.length := by
  rcases (listStarts_iff t s).mp h with ⟨u, rfl⟩
  simp

theorem replaceSuffix_length_le {s suf rep : String}
    (h : rep.data.length ≤ suf.data.length) :
    (replaceSuffix s suf rep).data.length ≤ s.data.length := by
  unfold replaceSuffix
  by_cases he : strEndsWith s suf
  · rw [if_pos he]
    rcases (strEndsWith_iff s suf).mp he with ⟨u, hu⟩
    have hsl : suf.data.length ≤ s.data.length := by
      rw [hu]; simp
    simp only [String.data]
    rw [List.length_append, List.length_take]
    omega
  · rw [if_neg he]

theorem distToSource_ne {p : String} (h : strStartsWith p "dist/" = true) :
    distToSource p ≠ p := by
  intro heq
  have h5 : 5 ≤ p.data.length := by
    have := listStarts_length_le (t := "dist/".data) (s := p.data) h
    simpa using this
  have hlt : (distToSource p).data.length < p.data.length := by
    unfold distToSource
    rw [if_pos h]
    have h1 : (String.mk (p.data.drop 5)).data.length = p.data.length - 5 := by
      simp
    calc (replaceSuffix (replaceSuffix (String.mk (p.data.drop 5)) ".js" ".ts") ".d.ts" ".ts").data.length
        ≤ (replaceSuffix (String.mk (p.data.drop 5)) ".js" ".ts").data.length :=
          replaceSuffix_length_le (by decide)
      _ ≤ (String.mk (p.data.drop 5)).data.length := replaceSuffix_length_le (by decide)
      _ = p.data.length - 5 := h1
      _ < p.data.length := by omega
  rw [heq] at hlt
  omega

/-! ## JSON model (JavaScript's `JSON.parse`)

`fixDeploymentErrors` extracts a JSON substring from the model response and
feeds it to `JSON.parse`.  The grammar below follows the JSON specification
that `JSON.parse` implements; number values are kept as their lexemes, which
is all the surrounding code observes. -/

theorem applyFixes_files_lookup (projectDir : String) (files : List FileEntry)
    (fs : FSState) (q : String) :
    (applyFixes projectDir files fs).files q =
      match files.reverse.find? (fun f => pathJoin projectDir f.filename == q) with
      | some f => some f.content
      | none => fs.files q := by
  induction files generalizing fs with
  | nil => simp [applyFixes]
  | cons f rest ih =>
    have hstep : applyFixes projectDir (f :: rest) fs =
        applyFixes projectDir rest
          (writeFileFS (mkdirRecursive fs (pathDirname (pathJoin projectDir f.filename)))
            (pathJoin projectDir f.filename) f.content) := rfl
    rw [hstep, ih]
    rw [List.reverse_cons, List.find?_append]
    cases hfind : rest.reverse.find? (fun g => pathJoin projectDir g.filename == q) with
    | some g => simp [hfind, Option.or]
    | none =>
      simp only [hfind, Option.or]
      by_cases hq : pathJoin projectDir f.filename = q
      · simp [List.find?, hq, writeFileFS, mkdirRecursive]
      · have hbeq : (pathJoin projectDir f.filename == q) = false := by
          simpa using hq
        have hqne : ¬ (q = pathJoin projectDir f.filename) := fun h => hq h.symm
        simp [List.find?, hbeq, writeFileFS, mkdirRecursive, hqne]

theorem applyFixes_dirs_mono (projectDir : String) (files : List FileEntry)
    (fs : FSState) {d : String} (h : d ∈ fs.dirs) :
    d ∈ (applyFixes projectDir files fs).dirs := by
  induction files generalizing fs with
  | nil => simpa [applyFixes] using h
  | cons f rest ih =>
    have hstep : applyFixes projectDir (f :: rest) fs =
        applyFixes projectDir rest
          (writeFileFS (mkdirRecursive fs (pathDirname (pathJoin projectDir f.filename)))
            (pathJoin projectDir f.filename) f.content) := rfl
    rw [hstep]
    exact ih _ (by simp [writeFileFS, mkdirRecursive, h])

theorem self_mem_ancestorsOf (d : String) : d ∈ ancestorsOf d := by
  unfold ancestorsOf
  have hne := splitOnSlash_ne_nil d.data
  have hlen : 0 < (splitOnSlash d.data).length := List.length_pos.mpr hne
  refine List.mem_map.mpr ⟨(splitOnSlash d.data).length - 1, ?_, ?_⟩
  · exact List.mem_range.mpr (by omega)
  · have : (splitOnSlash d.data).length - 1 + 1 = (splitOnSlash d.data).length := by omega
    rw [this, List.take_length, joinComps_splitOnSlash]

theorem applyFixes_parent_dirs (projectDir : String) (files : List FileEntry)
    (fs : FSState) :
    ∀ e ∈ files, pathDirname (pathJoin projectDir e.filename) ∈
      (applyFixes projectDir files fs).dirs := by
  induction files generalizing fs with
  | nil => intro e he; simp at he
  | cons f rest ih =>
    intro e he
    have hstep : applyFixes projectDir (f :: rest) fs =
        applyFixes projectDir rest
          (writeFileFS (mkdirRecursive fs (pathDirname (pathJoin projectDir f.filename)))
            (pathJoin projectDir f.filename) f.content) := rfl
    rcases List.mem_cons.mp he with rfl | he
    · rw [hstep]
      apply applyFixes_dirs_mono
      simp [writeFileFS, mkdirRecursive, self_mem_ancestorsOf]
    · rw [hstep]
      exact ih _ e he

/-! ## Error-Context Extractor (`extractRelevantFiles`, `src/debug.js` 527-606)

The regex scan of lines 535-549 produces a sequence of candidate path strings
(`match[1]` of each pattern, in scan order); the model takes that sequence as
an argument and is therefore quantified over every error text. -/

theorem extInv_push (projectDir : String) (fsys : String → Option String)
    {st : ExtState} (h : ExtInv projectDir fsys st) {p content : String}
    (hp : p ∉ st.seen) (hnm : ¬ occursIn nmChars p.data)
    (hc : fsys (pathJoin projectDir p) = some content) :
    ExtInv projectDir fsys
      ⟨p :: st.seen, st.entries ++ [⟨p, content⟩], st.readsRel ++ [p]⟩ := by
  constructor
  · have hnp : p ∉ st.entries.map (·.path) := by
      intro hmem
      rcases List.mem_map.mp hmem with ⟨e, he, hep⟩
      exact hp (hep ▸ h.paths_seen e he)
    simpa [List.nodup_append, h.nodup_paths] using hnp
  · intro e he
    rcases List.mem_append.mp he with he | he
    · exact List.mem_cons_of_mem _ (h.paths_seen e he)
    · have : e = ⟨p, content⟩ := by simpa using he
      subst this
      simp
  · have hnr : p ∉ st.readsRel := fun hmem => hp (h.reads_seen p hmem)
    simpa [List.nodup_append, h.nodup_reads] using hnr
  · intro r hr
    rcases List.mem_append.mp hr with hr | hr
    · exact List.mem_cons_of_mem _ (h.reads_seen r hr)
    · have : r = p := by simpa using hr
      subst this
      simp
  · intro e he
    rcases List.mem_append.mp he with he | he
    · exact h.no_dep e he
    · have : e = ⟨p, content⟩ := by simpa using he
      subst this
      exact hnm
  · intro e he
    rcases List.mem_append.mp he with he | he
    · exact h.content_ok e he
    · have : e = ⟨p, content⟩ := by simpa using he
      subst this
      exact hc

theorem extInv_seen (projectDir : String) (fsys : String → Option String)
    {st : ExtState} (h : ExtInv projectDir fsys st) (p : String) :
    ExtInv projectDir fsys ⟨p :: st.seen, st.entries, st.readsRel⟩ := by
  constructor
  · exact h.nodup_paths
  · exact fun e he => List.mem_cons_of_mem _ (h.paths_seen e he)
  · exact h.nodup_reads
  · exact fun r hr => List.mem_cons_of_mem _ (h.reads_seen r hr)
  · exact h.no_dep
  · exact h.content_ok

theorem extractTry_inv (projectDir : String) (fsys : String → Option String)
    {st : ExtState} (h : ExtInv projectDir fsys st) {p : String}
    (hnm : ¬ occursIn nmChars p.data) :
    ExtInv projectDir fsys (extractTry projectDir fsys st p) := by
  unfold extractTry
  split
  next hc => exact h
  next hc =>
    have hp : p ∉ st.seen := by first | exact hc | simpa using hc
    split
    next content heq => exact extInv_push projectDir fsys h hp hnm heq
    next heq => exact extInv_seen projectDir fsys h p

theorem extractStep_inv (projectDir : String) (fsys : String → Option String)
    {st : ExtState} (h : ExtInv projectDir fsys st) (cand : String) :
    ExtInv projectDir fsys (extractStep projectDir fsys st cand) := by
  by_cases hskip : skipCandidate cand
  · simpa [extractStep, hskip] using h
  · have hnosub : hasSub nmChars cand.data = false := by
      by_contra hx
      have htrue : hasSub nmChars cand.data = true := by
        cases hv : hasSub nmChars cand.data
        · exact absurd hv hx
        · rfl
      apply hskip
      unfold skipCandidate
      rw [htrue]
      simp
    have hnm_cand : ¬ occursIn nmChars cand.data := by
      intro hocc
      rw [(hasSub_iff nmChars cand.data).mpr hocc] at hnosub
      exact absurd hnosub (by decide)
    have hnm_fp : ¬ occursIn nmChars (normalizeFilePath cand projectDir).data :=
      normalizeFilePath_no_sub (by decide) (by decide) (by decide) hnm_cand
    simp only [extractStep, if_neg hskip]
    by_cases hdist : strStartsWith (normalizeFilePath cand projectDir) "dist/" = true
    · rw [if_pos hdist]
      have hnm_src : ¬ occursIn nmChars (distToSource (normalizeFilePath cand projectDir)).data :=
        distToSource_no_sub (by decide) (by decide) hnm_fp
      exact extractTry_inv projectDir fsys (extractTry_inv projectDir fsys h hnm_src) hnm_fp
    · rw [if_neg hdist]
      exact extractTry_inv projectDir fsys h hnm_fp

theorem extractRelevantFiles_inv (projectDir : String) (fsys : String → Option String)
    (cands : List String) :
    ExtInv projectDir fsys (extractRelevantFiles projectDir fsys cands) := by
  have hinit : ExtInv projectDir fsys ⟨[], [], []⟩ := by
    constructor <;> simp
  unfold extractRelevantFiles
  generalize hst : (⟨[], [], []⟩ : ExtState) = st at hinit
  clear hst
  induction cands generalizing st with
  | nil => simpa using hinit
  | cons c cs ih =>
    rw [List.foldl_cons]
    exact ih _ (extractStep_inv projectDir fsys hinit c)

theorem extractStep_skip (projectDir : String) (fsys : String → Option String)
    (st : ExtState) (cand : String) (h : skipCandidate cand = true) :
    extractStep projectDir fsys st cand = st := by
  simp [extractStep, h]

theorem extractRelevantFiles_filter (projectDir : String)
    (fsys : String → Option String) (cands : List String) :
    extractRelevantFiles projectDir fsys cands =
      extractRelevantFiles projectDir fsys
        (cands.filter (fun c => !(skipCandidate c))) := by
  unfold extractRelevantFiles
  generalize (⟨[], [], []⟩ : ExtState) = st
  induction cands generalizing st with
  | nil => rfl
  | cons c cs ih =>
    by_cases hskip : skipCandidate c
    · rw [List.foldl_cons, extractStep_skip projectDir fsys st c hskip]
      rw [List.filter_cons_of_neg (by simp [hskip])]
      exact ih st
    · rw [List.foldl_cons, List.filter_cons_of_pos (by simp [hskip]), List.foldl_cons]
      exact ih _

/-! ## Response parsing (`fixDeploymentErrors`, `src/debug.js` 453-490) -/

theorem countFixSuccesses_succ (fr : Nat → Option (List FileEntry × String)) (n : Nat) :
    countFixSuccesses fr (n + 1) =
      countFixSuccesses fr n + (if (fr n).isSome then 1 else 0) := by
  unfold countFixSuccesses
  by_cases h : (fr n).isSome
  · simp [List.range_succ, List.filter_append, h]
  · simp [List.range_succ, List.filter_append, h]

theorem runLoop_of_success (dr : Nat → Bool) (fr : Nat → Option (List FileEntry × String))
    (es : Nat → String) (fuel : Nat) {s : LoopState} (h : s.success = true) :
    runLoop dr fr es fuel s = s := by
  cases fuel with
  | zero => rfl
  | succ n => simp [runLoop, h]

theorem loopIter_fields (dr : Nat → Bool) (fr : Nat → Option (List FileEntry × String))
    (es : Nat → String) (s : LoopState) (hs : s.success = false) :
    (loopIter dr fr es s).deployCount = s.deployCount + 1 ∧
    (loopIter dr fr es s).success = dr s.deployCount ∧
    (loopIter dr fr es s).lastErr = (if dr s.deployCount then s.lastErr else true) ∧
    (loopIter dr fr es s).fixCount =
      (if s.lastErr then s.fixCount + 1 else s.fixCount) ∧
    (loopIter dr fr es s).history.length =
      s.history.length + (if s.lastErr ∧ (fr s.fixCount).isSome then 1 else 0) := by
  unfold loopIter
  by_cases hle : s.lastErr = true
  · cases hfr : fr s.fixCount with
    | some pr =>
      obtain ⟨files, summary⟩ := pr
      by_cases hdr : dr s.deployCount = true
      · simp [hle, hfr, hdr]
      · simp [hle, hfr, hdr, hs]
    | none =>
      by_cases hdr : dr s.deployCount = true
      · simp [hle, hfr, hdr]
      · simp [hle, hfr, hdr, hs]
  · by_cases hdr : dr s.deployCount = true
    · simp [hle, hdr]
    · simp [hle, hdr, hs]

theorem runLoop_spec (dr : Nat → Bool) (fr : Nat → Option (List FileEntry × String))
    (es : Nat → String) :
    ∀ (fuel : Nat) (s : LoopState),
      s.success = false →
      s.lastErr = decide (0 < s.deployCount) →
      (∀ k, k < s.deployCount → dr k = false) →
      s.fixCount = s.deployCount - 1 →
      s.history.length = countFixSuccesses fr s.fixCount →
      s.deployCount ≤ (runLoop dr fr es fuel s).deployCount ∧
      (runLoop dr fr es fuel s).deployCount ≤ s.deployCount + fuel ∧
      (0 < fuel → s.deployCount < (runLoop dr fr es fuel s).deployCount) ∧
      (runLoop dr fr es fuel s).fixCount = (runLoop dr fr es fuel s).deployCount - 1 ∧
      (runLoop dr fr es fuel s).history.length =
        countFixSuccesses fr (runLoop dr fr es fuel s).fixCount ∧
      ((runLoop dr fr es fuel s).success = false →
        ∀ k, k < (runLoop dr fr es fuel s).deployCount → dr k = false) ∧
      ((runLoop dr fr es fuel s).success = true →
        0 < (runLoop dr fr es fuel s).deployCount ∧
        dr ((runLoop dr fr es fuel s).deployCount - 1) = true ∧
        ∀ k, k < (runLoop dr fr es fuel s).deployCount - 1 → dr k = false) := by
  intro fuel
  induction fuel with
  | zero =>
    intro s hs hle hall hfix hhist
    simp only [runLoop]
    exact ⟨Nat.le_refl _, by omega, by omega, hfix, hhist, fun _ => hall,
      fun hsucc => absurd hsucc (by simp [hs])⟩
  | succ fuel ih =>
    intro s hs hle hall hfix hhist
    have hrun : runLoop dr fr es (fuel + 1) s = runLoop dr fr es fuel (loopIter dr fr es s) := by
      simp [runLoop, hs]
    obtain ⟨hA, hB, hC, hD, hE⟩ := loopIter_fields dr fr es s hs
    have hlastIff : s.lastErr = true ↔ 0 < s.deployCount := by rw [hle]; simp
    have hfixIter : (loopIter dr fr es s).fixCount = s.deployCount := by
      by_cases h0 : s.lastErr = true
      · rw [hD, if_pos h0]
        have := hlastIff.mp h0
        omega
      · rw [hD, if_neg h0]
        have : ¬ 0 < s.deployCount := fun hp => h0 (hlastIff.mpr hp)
        omega
    have hhistIter : (loopIter dr fr es s).history.length =
        countFixSuccesses fr (loopIter dr fr es s).fixCount := by
      by_cases h0 : s.lastErr = true
      · rw [hE, hD, if_pos h0, countFixSuccesses_succ, hhist]
        by_cases hsome : (fr s.fixCount).isSome
        · simp [h0, hsome]
        · simp [h0, hsome]
      · rw [hE, hD, if_neg h0, hhist]
        simp [h0]
    by_cases hdr : dr s.deployCount = true
    · have hsucc' : (loopIter dr fr es s).success = true := by rw [hB, hdr]
      have hstop : runLoop dr fr es fuel (loopIter dr fr es s) = loopIter dr fr es s :=
        runLoop_of_success dr fr es fuel hsucc'
      rw [hrun, hstop]
      refine ⟨by omega, by omega, by omega, by omega, hhistIter,
        fun hfalse => absurd hfalse (by simp [hsucc']), fun _ => ?_⟩
      refine ⟨by omega, ?_, ?_⟩
      · have : (loopIter dr fr es s).deployCount - 1 = s.deployCount := by omega
        rw [this]; exact hdr
      · intro k hk
        apply hall
        omega
    · have hdrf : dr s.deployCount = false := by simpa using hdr
      have hsucc' : (loopIter dr fr es s).success = false := by rw [hB, hdrf]
      have hle' : (loopIter dr fr es s).lastErr =
          decide (0 < (loopIter dr fr es s).deployCount) := by
        rw [hC, if_neg (by simp [hdrf]), hA]
        simp
      have hall' : ∀ k, k < (loopIter dr fr es s).deployCount → dr k = false := by
        intro k hk
        rw [hA] at hk
        rcases Nat.lt_succ_iff_lt_or_eq.mp hk with hk | rfl
        · exact hall k hk
        · exact hdrf
      have hfix' : (loopIter dr fr es s).fixCount =
          (loopIter dr fr es s).deployCount - 1 := by
        rw [hfixIter, hA]
        omega
      obtain ⟨ih1, ih2, ih3, ih4, ih5, ih6, ih7⟩ :=
        ih (loopIter dr fr es s) hsucc' hle' hall' hfix' hhistIter
      rw [hrun]
      refine ⟨by omega, by omega, fun _ => by omega, ih4, ih5, ih6, ih7⟩

/-! ## Error records and the Fix Requestor (`fixDeploymentErrors`, lines 328-523) -/

theorem exitCode_eq_one_iff (s : LoopState) : exitCode s = 1 ↔ s.success = false := by
  unfold exitCode
  cases h : s.success <;> simp [h]

theorem commonLen_of_front {a b : List (List Char)} (h : listFront a b = true) :
    commonLen a b = a.length := by
  induction a generalizing b with
  | nil => cases b <;> rfl
  | cons x xs ih =>
    cases b with
    | nil => simp [listFront] at h
    | cons y ys =>
      simp only [listFront, Bool.and_eq_true, beq_iff_eq] at h
      obtain ⟨rfl, h2⟩ := h
      simp [commonLen, ih h2]

/-! ## Claims -/

/-- C1: for every configured maximum `N ≥ 1`, one run of the retry loop
executes the deploy step at most `N` times and the fix step at most `N - 1`
times — the fix step runs only after a failed deploy (exactly once per
deploy after the first) and never after the final deploy — and the run's
exit code is `1` iff every executed deploy attempt failed. -/
theorem retryLoop_bounds_and_exit (N : Nat) (dr : Nat → Bool)
    (fr : Nat → Option (List FileEntry × String)) (es : Nat → String)
    (hN : 1 ≤ N) :
    (runMain N dr fr es).deployCount ≤ N ∧
    (runMain N dr fr es).fixCount ≤ N - 1 ∧
    (runMain N dr fr es).fixCount = (runMain N dr fr es).deployCount - 1 ∧
    (exitCode (runMain N dr fr es) = 1 ↔
      ∀ k, k < (runMain N dr fr es).deployCount → dr k = false) := by
  obtain ⟨h1, h2, h3, h4, h5, h6, h7⟩ :=
    runLoop_spec dr fr es N initLoopState rfl (by simp [initLoopState])
      (by intro k hk; simp [initLoopState] at hk) rfl
      (by simp [initLoopState, countFixSuccesses])
  simp only [runMain]
  have e0 : initLoopState.deployCount = 0 := rfl
  rw [e0] at h2 h3
  refine ⟨by omega, by omega, h4, ?_⟩
  rw [exitCode_eq_one_iff]
  constructor
  · intro hfalse
    exact h6 hfalse
  · intro hall
    cases hsucc : (runLoop dr fr es N initLoopState).success with
    | false => rfl
    | true =>
      obtain ⟨hpos, hdr, _⟩ := h7 hsucc
      have := hall ((runLoop dr fr es N initLoopState).deployCount - 1) (by omega)
      rw [this] at hdr
      cases hdr

/-- Witness for `retryLoop_bounds_and_exit` at `N = 2` with every deploy
failing and the fix step throwing. -/
theorem retryLoop_bounds_and_exit_witness :
    1 ≤ 2 ∧
    ((runMain 2 (fun _ => false) (fun _ => none) (fun _ => "e")).deployCount ≤ 2 ∧
     (runMain 2 (fun _ => false) (fun _ => none) (fun _ => "e")).fixCount ≤ 2 - 1 ∧
     (runMain 2 (fun _ => false) (fun _ => none) (fun _ => "e")).fixCount =
       (runMain 2 (fun _ => false) (fun _ => none) (fun _ => "e")).deployCount - 1 ∧
     (exitCode (runMain 2 (fun _ => false) (fun _ => none) (fun _ => "e")) = 1 ↔
       ∀ k, k < (runMain 2 (fun _ => false) (fun _ => none) (fun _ => "e")).deployCount →
         (fun _ => false : Nat → Bool) k = false)) :=
  ⟨by decide,
    retryLoop_bounds_and_exit 2 (fun _ => false) (fun _ => none) (fun _ => "e") (by decide)⟩

/-- C2 counterexample: with `maxAttempts = 2`, both deploys failing and the
single fix-step invocation throwing (`fixDeploymentErrors` rejected, caught
at lines 147-151), the fix step was invoked once yet the history stayed
empty: a failed fix step does NOT append an Attempt entry, because the
`fixHistory.push` of lines 133-144 only runs after `fixDeploymentErrors`
resolves. -/
theorem fixHistory_failed_fix_cex :
    (runMain 2 (fun _ => false) (fun _ => none) (fun _ => "boom")).fixCount = 1 ∧
    (runMain 2 (fun _ => false) (fun _ => none) (fun _ => "boom")).history.length = 0 ∧
    ¬ ((runMain 2 (fun _ => false) (fun _ => none) (fun _ => "boom")).history.length =
        (runMain 2 (fun _ => false) (fun _ => none) (fun _ => "boom")).fixCount) :=
  ⟨by decide, by decide, by decide⟩

/-- C2 (amended): every fix-step invocation that completes successfully
appends exactly one entry to the attempt history, and a fix step that throws
consumes its slot without appending — after a run the history length equals
the number of fix invocations that resolved (zero when the first deploy
succeeds). -/
theorem fixHistory_counts_successful_fixes (N : Nat) (dr : Nat → Bool)
    (fr : Nat → Option (List FileEntry × String)) (es : Nat → String) :
    (runMain N dr fr es).history.length =
      countFixSuccesses fr (runMain N dr fr es).fixCount ∧
    (dr 0 = true → (runMain N dr fr es).history.length = 0) := by
  cases N with
  | zero =>
    exact ⟨by simp [runMain, runLoop, initLoopState, countFixSuccesses],
      fun _ => by simp [runMain, runLoop, initLoopState]⟩
  | succ n =>
    obtain ⟨h1, h2, h3, h4, h5, h6, h7⟩ :=
      runLoop_spec dr fr es (n + 1) initLoopState rfl (by simp [initLoopState])
        (by intro k hk; simp [initLoopState] at hk) rfl
        (by simp [initLoopState, countFixSuccesses])
    simp only [runMain]
    refine ⟨h5, ?_⟩
    intro hdr0
    have e0 : initLoopState.deployCount = 0 := rfl
    rw [e0] at h3
    have hfix0 : (runLoop dr fr es (n + 1) initLoopState).fixCount = 0 := by
      cases hsucc : (runLoop dr fr es (n + 1) initLoopState).success with
      | true =>
        obtain ⟨hpos, hdr, hall⟩ := h7 hsucc
        have hdc1 : (runLoop dr fr es (n + 1) initLoopState).deployCount = 1 := by
          by_contra hx
          have := hall 0 (by omega)
          rw [hdr0] at this
          cases this
        omega
      | false =>
        exfalso
        have := h6 hsucc 0 (by exact h3 (by omega))
        rw [hdr0] at this
        cases this
    rw [h5, hfix0]
    rfl

/-- Witness for `fixHistory_counts_successful_fixes` with the first deploy
succeeding: the history is empty. -/
theorem fixHistory_counts_successful_fixes_witness :
    ((fun _ => true : Nat → Bool) 0 = true) ∧
    (runMain 3 (fun _ => true) (fun _ => some ([], "s")) (fun _ => "e")).history.length = 0 :=
  ⟨by decide, (fixHistory_counts_successful_fixes 3 (fun _ => true)
    (fun _ => some ([], "s")) (fun _ => "e")).2 (by decide)⟩

/-- C3: for every candidate path sequence (hence every error text), project
root and filesystem, the Error-Context Extractor returns no two entries with
the same path and no entry whose path mentions the dependency-install
directory; candidates referencing `node_modules`, the `internal/` runtime
prefix or the bare runtime module contribute nothing (dropping them changes
nothing); each distinct resolved path is read at most once; every returned
entry is a successful read of its joined path; and an unreadable path is
skipped while the (total) extractor still returns normally, as the
single-candidate equation makes explicit. -/
theorem extractRelevantFiles_dedup_and_filters
    (cands : List String) (projectDir : String) (fsys : String → Option String) :
    ((extractRelevantFiles projectDir fsys cands).entries.map (·.path)).Nodup ∧
    (∀ e ∈ (extractRelevantFiles projectDir fsys cands).entries,
      ¬ occursIn nmChars e.path.data) ∧
    (extractRelevantFiles projectDir fsys cands =
      extractRelevantFiles projectDir fsys
        (cands.filter (fun c => !(skipCandidate c)))) ∧
    (extractRelevantFiles projectDir fsys cands).readsRel.Nodup ∧
    (∀ e ∈ (extractRelevantFiles projectDir fsys cands).entries,
      fsys (pathJoin projectDir e.path) = some e.content) ∧
    (∀ c, skipCandidate c = false →
      strStartsWith (normalizeFilePath c projectDir) "dist/" = false →
      fsys (pathJoin projectDir (normalizeFilePath c projectDir)) = none →
      extractRelevantFiles projectDir fsys [c] =
        ⟨[normalizeFilePath c projectDir], [], []⟩) := by
  have inv := extractRelevantFiles_inv projectDir fsys cands
  refine ⟨inv.nodup_paths, inv.no_dep,
    extractRelevantFiles_filter projectDir fsys cands, inv.nodup_reads,
    inv.content_ok, ?_⟩
  intro c hskip hdist hread
  simp [extractRelevantFiles, extractStep, hskip, hdist, extractTry, hread]

/-- Witness for `extractRelevantFiles_dedup_and_filters`: a concrete
extraction whose entry satisfies the dependency-freedom and content
conjuncts, and a concrete unreadable candidate that is skipped. -/
theorem extractRelevantFiles_dedup_and_filters_witness :
    (¬ occursIn nmChars
      ((⟨"lib/a.ts", "SRC"⟩ : RelevantFile)).path.data) ∧
    ((fun p => if p = "/proj/lib/a.ts" then some "SRC" else none : String → Option String)
      (pathJoin "/proj" ((⟨"lib/a.ts", "SRC"⟩ : RelevantFile)).path) = some
        ((⟨"lib/a.ts", "SRC"⟩ : RelevantFile)).content) ∧
    extractRelevantFiles "/proj"
      (fun p => if p = "/proj/lib/a.ts" then some "SRC" else none) ["missing.ts"] =
      ⟨[normalizeFilePath "missing.ts" "/proj"], [], []⟩ := by
  refine ⟨?_, ?_, ?_⟩
  · exact (extractRelevantFiles_dedup_and_filters ["lib/a.ts", "/proj/lib/a.ts"] "/proj"
      (fun p => if p = "/proj/lib/a.ts" then some "SRC" else none)).2.1
      ⟨"lib/a.ts", "SRC"⟩ (by decide)
  · exact (extractRelevantFiles_dedup_and_filters ["lib/a.ts", "/proj/lib/a.ts"] "/proj"
      (fun p => if p = "/proj/lib/a.ts" then some "SRC" else none)).2.2.2.2.1
      ⟨"lib/a.ts", "SRC"⟩ (by decide)
  · exact (extractRelevantFiles_dedup_and_filters [] "/proj"
      (fun p => if p = "/proj/lib/a.ts" then some "SRC" else none)).2.2.2.2.2
      "missing.ts" (by decide) (by decide) (by decide)

/-- C4 counterexample: with the error text yielding the candidate
`dist/lib/a.js` and both the build-output file and its mapped source
readable, the extractor returns — and reads — BOTH files: the source file is
read in addition to, not instead of, the build-output file (after the
`dist/` block of lines 563-581 the same path falls through to the main read
of lines 584-601). -/
theorem distMapping_reads_both_cex :
    (extractRelevantFiles "/proj"
      (fun p => if p = "/proj/lib/a.ts" then some "SRC"
        else if p = "/proj/dist/lib/a.js" then some "OUT" else none)
      ["dist/lib/a.js"]).entries =
      [⟨"lib/a.ts", "SRC"⟩, ⟨"dist/lib/a.js", "OUT"⟩] ∧
    (extractRelevantFiles "/proj"
      (fun p => if p = "/proj/lib/a.ts" then some "SRC"
        else if p = "/proj/dist/lib/a.js" then some "OUT" else none)
      ["dist/lib/a.js"]).readsRel = ["lib/a.ts", "dist/lib/a.js"] :=
  ⟨by decide, by decide⟩

/-- C4 (amended): a (relative, non-skipped) candidate under the build-output
directory is mapped to its source path by stripping the `dist/` prefix and
swapping the compiled extension for `.ts`; the source file is read first,
and IN ADDITION the build-output path itself is still processed and, when
readable, also read and returned. -/
theorem distMapping_source_and_output (c projectDir : String)
    (fsys : String → Option String)
    (hskip : skipCandidate c = false) (habs : isAbsolutePath c = false)
    (hdist : strStartsWith c "dist/" = true) :
    (extractRelevantFiles projectDir fsys [c]).entries =
      (match fsys (pathJoin projectDir (distToSource c)) with
        | some ct => [⟨distToSource c, ct⟩]
        | none => []) ++
      (match fsys (pathJoin projectDir c) with
        | some ct => [⟨c, ct⟩]
        | none => []) ∧
    (extractRelevantFiles projectDir fsys [c]).readsRel =
      (match fsys (pathJoin projectDir (distToSource c)) with
        | some _ => [distToSource c]
        | none => []) ++
      (match fsys (pathJoin projectDir c) with
        | some _ => [c]
        | none => []) := by
  have hnorm : normalizeFilePath c projectDir = c := by
    simp [normalizeFilePath, habs]
  have hne : ¬ (c = distToSource c) := fun h => distToSource_ne hdist h.symm
  have hbeq : (c == distToSource c) = false := by simpa using hne
  cases h1 : fsys (pathJoin projectDir (distToSource c)) with
  | some ct1 =>
    cases h2 : fsys (pathJoin projectDir c) with
    | some ct2 =>
      constructor <;>
        simp [extractRelevantFiles, extractStep, hskip, hnorm, hdist, extractTry,
          h1, h2, hbeq, hne]
    | none =>
      constructor <;>
        simp [extractRelevantFiles, extractStep, hskip, hnorm, hdist, extractTry,
          h1, h2, hbeq, hne]
  | none =>
    cases h2 : fsys (pathJoin projectDir c) with
    | some ct2 =>
      constructor <;>
        simp [extractRelevantFiles, extractStep, hskip, hnorm, hdist, extractTry,
          h1, h2, hbeq, hne]
    | none =>
      constructor <;>
        simp [extractRelevantFiles, extractStep, hskip, hnorm, hdist, extractTry,
          h1, h2, hbeq, hne]

/-- Witness for `distMapping_source_and_output` at the candidate
`dist/b.js` over an empty filesystem. -/
theorem distMapping_source_and_output_witness :
    skipCandidate "dist/b.js" = false ∧
    isAbsolutePath "dist/b.js" = false ∧
    strStartsWith "dist/b.js" "dist/" = true ∧
    ((extractRelevantFiles "/p" (fun _ => none) ["dist/b.js"]).entries =
      (match (fun _ => none : String → Option String)
          (pathJoin "/p" (distToSource "dist/b.js")) with
        | some ct => [⟨distToSource "dist/b.js", ct⟩]
        | none => []) ++
      (match (fun _ => none : String → Option String) (pathJoin "/p" "dist/b.js") with
        | some ct => [⟨("dist/b.js" : String), ct⟩]
        | none => []) ∧
     (extractRelevantFiles "/p" (fun _ => none) ["dist/b.js"]).readsRel =
      (match (fun _ => none : String → Option String)
          (pathJoin "/p" (distToSource "dist/b.js")) with
        | some _ => [distToSource "dist/b.js"]
        | none => []) ++
      (match (fun _ => none : String → Option String) (pathJoin "/p" "dist/b.js") with
        | some _ => [("dist/b.js" : String)]
        | none => [])) :=
  ⟨by decide, by decide, by decide,
    distMapping_source_and_output "dist/b.js" "/p" (fun _ => none)
      (by decide) (by decide) (by decide)⟩

/-- C5 counterexample: a FixResult file list naming `lib/a.ts` twice, first
with content `"X"` and then `"Y"`: after the Fix Applicator runs the file
holds `"Y"`, so the first listed file's given content is not on disk — the
claim's universal statement fails on lists with repeated filenames. -/
theorem applyFixes_duplicate_filename_cex :
    (applyFixes "P" [⟨"lib/a.ts", "X"⟩, ⟨"lib/a.ts", "Y"⟩]
      ⟨fun _ => none, []⟩).files (pathJoin "P" "lib/a.ts") = some "Y" ∧
    ¬ (∀ e ∈ [(⟨"lib/a.ts", "X"⟩ : FileEntry), ⟨"lib/a.ts", "Y"⟩],
        (applyFixes "P" [⟨"lib/a.ts", "X"⟩, ⟨"lib/a.ts", "Y"⟩]
          ⟨fun _ => none, []⟩).files (pathJoin "P" e.filename) = some e.content) := by
  refine ⟨by decide, ?_⟩
  intro h
  have hx := h ⟨"lib/a.ts", "X"⟩ (by decide)
  revert hx
  decide

/-- C5 (amended): after the Fix Applicator runs, each listed file exists at
the project root joined with its relative filename, holding the content of
the LAST list entry that resolves to the same joined path, and with its
parent directory created; when the joined paths are pairwise distinct every
listed file holds exactly its own given content — in particular the
singleton `lib/a.ts ↦ "X"` example yields exactly `"X"`. -/
theorem applyFixes_writes_last_content (projectDir : String)
    (files : List FileEntry) (fs0 : FSState) :
    (∀ e ∈ files,
      (applyFixes projectDir files fs0).files (pathJoin projectDir e.filename) =
        (files.reverse.find?
          (fun f => pathJoin projectDir f.filename == pathJoin projectDir e.filename)).map
          (·.content)) ∧
    (∀ e ∈ files,
      pathDirname (pathJoin projectDir e.filename) ∈
        (applyFixes projectDir files fs0).dirs) ∧
    ((files.map (fun f => pathJoin projectDir f.filename)).Nodup →
      ∀ e ∈ files,
        (applyFixes projectDir files fs0).files (pathJoin projectDir e.filename) =
          some e.content) ∧
    (applyFixes projectDir [⟨"lib/a.ts", "X"⟩] fs0).files
      (pathJoin projectDir "lib/a.ts") = some "X" := by
  refine ⟨?_, applyFixes_parent_dirs projectDir files fs0, ?_, ?_⟩
  · intro e he
    rw [applyFixes_files_lookup]
    cases hfind : files.reverse.find?
        (fun f => pathJoin projectDir f.filename == pathJoin projectDir e.filename) with
    | some f => simp
    | none =>
      exfalso
      have := List.find?_eq_none.mp hfind e (List.mem_reverse.mpr he)
      simp at this
  · intro hnodup e he
    rw [applyFixes_files_lookup]
    cases hfind : files.reverse.find?
        (fun f => pathJoin projectDir f.filename == pathJoin projectDir e.filename) with
    | none =>
      exfalso
      have := List.find?_eq_none.mp hfind e (List.mem_reverse.mpr he)
      simp at this
    | some f =>
      have hpred := List.find?_some hfind
      have hfmem := List.mem_of_find?_eq_some hfind
      have hfe : f = e := by
        refine List.inj_on_of_nodup_map hnodup ?_ ?_ ?_
        · exact List.mem_reverse.mp hfmem
        · exact he
        · simpa using hpred
      simp [hfe]
  · rw [applyFixes_files_lookup]
    simp [List.find?]

/-- Witness for `applyFixes_writes_last_content` on the singleton list. -/
theorem applyFixes_writes_last_content_witness :
    ((⟨"lib/a.ts", "X"⟩ : FileEntry) ∈ [(⟨"lib/a.ts", "X"⟩ : FileEntry)]) ∧
    (applyFixes "P" [⟨"lib/a.ts", "X"⟩] ⟨fun _ => none, []⟩).files
      (pathJoin "P" "lib/a.ts") = some "X" ∧
    pathDirname (pathJoin "P" "lib/a.ts") ∈
      (applyFixes "P" [⟨"lib/a.ts", "X"⟩] ⟨fun _ => none, []⟩).dirs := by
  refine ⟨by decide, ?_, ?_⟩
  · exact (applyFixes_writes_last_content "P" [⟨"lib/a.ts", "X"⟩]
      ⟨fun _ => none, []⟩).2.2.2
  · exact (applyFixes_writes_last_content "P" [⟨"lib/a.ts", "X"⟩]
      ⟨fun _ => none, []⟩).2.1 ⟨"lib/a.ts", "X"⟩ (by decide)

/-- C6: the response parse fails with the malformed-response error both when
no brace-delimited JSON substring exists and when the extracted substring
does not parse as JSON; it fails with the empty-fix-set error when the
parsed object lacks a nonempty `files` array; and a missing `summary` field
is defaulted to the placeholder string rather than failing. -/
theorem parseFixResponse_error_modes :
    (∀ s, extractJsonObject s = none →
      parseFixResponse s = .error .malformedResponse) ∧
    (∀ s frag, extractJsonObject s = some frag → jsonParse frag = none →
      parseFixResponse s = .error .malformedResponse) ∧
    (∀ s frag j, extractJsonObject s = some frag → jsonParse frag = some j →
      (∀ f fs, getField j "files" ≠ some (Json.arr (f :: fs))) →
      parseFixResponse s = .error .emptyFixSet) ∧
    (∀ s frag j f fs, extractJsonObject s = some frag → jsonParse frag = some j →
      getField j "files" = some (Json.arr (f :: fs)) →
      getField j "summary" = none →
      parseFixResponse s = .ok ⟨Json.str "No summary provided", f :: fs⟩) := by
  refine ⟨?_, ?_, ?_, ?_⟩
  · intro s h
    simp [parseFixResponse, h]
  · intro s frag h1 h2
    simp [parseFixResponse, h1, h2]
  · intro s frag j h1 h2 h3
    simp only [parseFixResponse, h1, h2]
  · intro s frag j f fs h1 h2 h3 h4
    simp [parseFixResponse, h1, h2, h3, h4]

/-- Witness for `parseFixResponse_error_modes` on four concrete responses:
no JSON substring, a non-JSON brace substring, an empty `files` array, and a
summary-less object with one file. -/
theorem parseFixResponse_error_modes_witness :
    extractJsonObject "no json response" = none ∧
    parseFixResponse "no json response" = .error .malformedResponse ∧
    extractJsonObject "x \x7b bad \x7d y" = some "\x7b bad \x7d" ∧
    jsonParse "\x7b bad \x7d" = none ∧
    parseFixResponse "x \x7b bad \x7d y" = .error .malformedResponse ∧
    parseFixResponse "\x7b\"files\": []\x7d" = .error .emptyFixSet ∧
    parseFixResponse "\x7b\"files\": [1]\x7d" =
      .ok ⟨Json.str "No summary provided", [Json.num "1"]⟩ := by
  refine ⟨rfl, parseFixResponse_error_modes.1 "no json response" rfl, rfl, rfl,
    parseFixResponse_error_modes.2.1 "x \x7b bad \x7d y" "\x7b bad \x7d" rfl rfl,
    parseFixResponse_error_modes.2.2.1 "\x7b\"files\": []\x7d" "\x7b\"files\": []\x7d"
      (Json.obj [("files", Json.arr [])]) rfl rfl ?_,
    parseFixResponse_error_modes.2.2.2 "\x7b\"files\": [1]\x7d" "\x7b\"files\": [1]\x7d"
      (Json.obj [("files", Json.arr [Json.num "1"])]) (Json.num "1") [] rfl rfl rfl rfl⟩
  intro f fs h
  have h2 : some (Json.arr []) = some (Json.arr (f :: fs)) := h
  injection h2 with h3
  injection h3 with h4
  exact absurd h4.symm (List.cons_ne_nil f fs)

/-- C7: with an API key configured, every run of the Fix Requestor persists
at least one audit record carrying the built prompt before it returns or
re-raises: on the success path the persisted record has `success = true`
with the parsed response embedded, and on every failure path (transport
error, missing or malformed JSON substring, empty fix set, write failure) a
record with `success = false` is persisted. -/
theorem fixRequestor_always_audits (apiKey : Option String)
    (projectDir plantUml : String) (err : ErrRecord) (hist : List HistEntry)
    (cands : List String) (transport : Except String String) (fst : FSState)
    (hkey : apiKey.isSome = true) :
    0 < (fixDeploymentErrorsModel apiKey projectDir plantUml err hist cands
        transport fst).audits.length ∧
    (∀ a ∈ (fixDeploymentErrorsModel apiKey projectDir plantUml err hist cands
        transport fst).audits,
      a.prompt = buildPrompt plantUml hist
        (withFallback projectDir fst.files
          (extractRelevantFiles projectDir fst.files cands).entries) (errText err)) ∧
    (∀ r, (fixDeploymentErrorsModel apiKey projectDir plantUml err hist cands
        transport fst).result = .ok r →
      ∃ a ∈ (fixDeploymentErrorsModel apiKey projectDir plantUml err hist cands
          transport fst).audits, a.success = true ∧ a.response.isSome = true) ∧
    (∀ e, (fixDeploymentErrorsModel apiKey projectDir plantUml err hist cands
        transport fst).result = .error e →
      ∃ a ∈ (fixDeploymentErrorsModel apiKey projectDir plantUml err hist cands
          transport fst).audits, a.success = false) := by
  have hnone : apiKey.isNone = false := by
    cases apiKey with
    | none => simp at hkey
    | some k => rfl
  cases transport with
  | error emsg =>
    refine ⟨?_, ?_, ?_, ?_⟩ <;> simp [fixDeploymentErrorsModel, hnone]
  | ok responseText =>
    cases hex : extractJsonObject responseText with
    | none =>
      refine ⟨?_, ?_, ?_, ?_⟩ <;> simp [fixDeploymentErrorsModel, hnone, hex]
    | some frag =>
      cases hjp : jsonParse frag with
      | none =>
        refine ⟨?_, ?_, ?_, ?_⟩ <;> simp [fixDeploymentErrorsModel, hnone, hex, hjp]
      | some j =>
        cases hf : getField j "files" with
        | none =>
          refine ⟨?_, ?_, ?_, ?_⟩ <;> simp [fixDeploymentErrorsModel, hnone, hex, hjp, hf]
        | some v =>
          cases v with
          | null =>
            refine ⟨?_, ?_, ?_, ?_⟩ <;>
              simp [fixDeploymentErrorsModel, hnone, hex, hjp, hf]
          | bool b =>
            refine ⟨?_, ?_, ?_, ?_⟩ <;>
              simp [fixDeploymentErrorsModel, hnone, hex, hjp, hf]
          | num lexeme =>
            refine ⟨?_, ?_, ?_, ?_⟩ <;>
              simp [fixDeploymentErrorsModel, hnone, hex, hjp, hf]
          | str t =>
            refine ⟨?_, ?_, ?_, ?_⟩ <;>
              simp [fixDeploymentErrorsModel, hnone, hex, hjp, hf]
          | obj fields =>
            refine ⟨?_, ?_, ?_, ?_⟩ <;>
              simp [fixDeploymentErrorsModel, hnone, hex, hjp, hf]
          | arr elems =>
            cases elems with
            | nil =>
              refine ⟨?_, ?_, ?_, ?_⟩ <;>
                simp [fixDeploymentErrorsModel, hnone, hex, hjp, hf]
            | cons f fsx =>
              rcases happ : applyJsonFiles projectDir (f :: fsx) fst with ⟨fs2, ok⟩
              cases ok with
              | true =>
                refine ⟨?_, ?_, ?_, ?_⟩ <;>
                  simp [fixDeploymentErrorsModel, hnone, hex, hjp, hf, happ]
              | false =>
                refine ⟨?_, ?_, ?_, ?_⟩ <;>
                  simp [fixDeploymentErrorsModel, hnone, hex, hjp, hf, happ]

/-- Witness for `fixRequestor_always_audits`: a configured key with an
unreachable endpoint still persists an audit record. -/
theorem fixRequestor_always_audits_witness :
    (some "api-key" : Option String).isSome = true ∧
    0 < (fixDeploymentErrorsModel (some "api-key") "/proj" "" ⟨"m", "o", "e"⟩ [] []
        (Except.error "connect ECONNREFUSED") ⟨fun _ => none, []⟩).audits.length :=
  ⟨by decide,
    (fixRequestor_always_audits (some "api-key") "/proj" "" ⟨"m", "o", "e"⟩ [] []
      (Except.error "connect ECONNREFUSED") ⟨fun _ => none, []⟩ (by decide)).1⟩

/-- C8 counterexample: with project root `/proj`, the absolute path
`/project/x.ts` lies OUTSIDE the root (the root's components are not an
initial segment of its components), yet `normalizeFilePath` rewrites it via
`path.relative` to `../project/x.ts` instead of falling back to the base
filename `x.ts` — the `startsWith` test of line 258 fires on a
non-directory-boundary string prefix. -/
theorem normalizeFilePath_outside_root_cex :
    liesInside "/project/x.ts" "/proj" = false ∧
    pathBasename "/project/x.ts" = "x.ts" ∧
    normalizeFilePath "/project/x.ts" "/proj" = "../project/x.ts" ∧
    normalizeFilePath "/project/x.ts" "/proj" ≠ pathBasename "/project/x.ts" :=
  ⟨by decide, by decide, by decide, by decide⟩

/-- C8 (amended): `normalizeFilePath` leaves relative paths unchanged;
rewrites an absolute path whose string starts with the project-root string
via `path.relative` — which equals the plain root-relative path (the
components past the root, with no `..` segments) whenever the path really
lies inside the root; and falls back to the base filename only for absolute
paths that do not share the root as a string prefix.  An absolute path
outside the root that shares the root as a non-boundary string prefix is
therefore rewritten to a `../`-relative path, not its basename. -/
theorem normalizeFilePath_cases (p root : String) :
    (isAbsolutePath p = false → normalizeFilePath p root = p) ∧
    (isAbsolutePath p = true → strStartsWith p root = true →
      normalizeFilePath p root = pathRelative root p) ∧
    (isAbsolutePath p = true → strStartsWith p root = false →
      normalizeFilePath p root = pathBasename p) ∧
    (liesInside p root = true →
      relativeComps (compsOf root) (compsOf p) =
        (compsOf p).drop (compsOf root).length) := by
  refine ⟨?_, ?_, ?_, ?_⟩
  · intro h1
    simp [normalizeFilePath, h1]
  · intro h1 h2
    simp [normalizeFilePath, h1, h2]
  · intro h1 h2
    simp [normalizeFilePath, h1, h2]
  · intro h
    unfold liesInside at h
    unfold relativeComps
    rw [commonLen_of_front h]
    simp

/-- Witness for `normalizeFilePath_cases` on a relative path, an absolute
path inside the root, an absolute path with an unrelated prefix, and the
inside-the-root component condition. -/
theorem normalizeFilePath_cases_witness :
    (isAbsolutePath "lib/a.ts" = false ∧
      normalizeFilePath "lib/a.ts" "/proj" = "lib/a.ts") ∧
    (isAbsolutePath "/proj/lib/a.ts" = true ∧
      strStartsWith "/proj/lib/a.ts" "/proj" = true ∧
      normalizeFilePath "/proj/lib/a.ts" "/proj" = pathRelative "/proj" "/proj/lib/a.ts") ∧
    (isAbsolutePath "/other/b.ts" = true ∧
      strStartsWith "/other/b.ts" "/proj" = false ∧
      normalizeFilePath "/other/b.ts" "/proj" = pathBasename "/other/b.ts") ∧
    (liesInside "/proj/lib/a.ts" "/proj" = true ∧
      relativeComps (compsOf "/proj") (compsOf "/proj/lib/a.ts") =
        (compsOf "/proj/lib/a.ts").drop (compsOf "/proj").length) :=
  ⟨⟨by decide, (normalizeFilePath_cases "lib/a.ts" "/proj").1 (by decide)⟩,
   ⟨by decide, by decide,
     (normalizeFilePath_cases "/proj/lib/a.ts" "/proj").2.1 (by decide) (by decide)⟩,
   ⟨by decide, by decide,
     (normalizeFilePath_cases "/other/b.ts" "/proj").2.2.1 (by decide) (by decide)⟩,
   ⟨by decide, (normalizeFilePath_cases "/proj/lib/a.ts" "/proj").2.2.2 (by decide)⟩⟩

/-- C9: when the `--max-attempts` value does not parse to a nonzero integer
— a non-numeric string (`parseInt` yields `NaN`) or an explicit `0` — the
effective maximum-attempt bound silently becomes the default of 5; in
particular passing `"0"` does not disable the loop: with every deploy
failing, five deploy attempts are executed. -/
theorem maxAttempts_fallback_default :
    effectiveMaxAttempts "0" = 5 ∧
    (∀ s, jsParseInt s = none → effectiveMaxAttempts s = 5) ∧
    (∀ s, jsParseInt s = some 0 → effectiveMaxAttempts s = 5) ∧
    (runMain (effectiveMaxAttempts "0").toNat (fun _ => false) (fun _ => none)
      (fun _ => "")).deployCount = 5 := by
  refine ⟨by decide, ?_, ?_, by decide⟩
  · intro s h
    simp [effectiveMaxAttempts, h]
  · intro s h
    simp [effectiveMaxAttempts, h]

/-- Witness for `maxAttempts_fallback_default` on a non-numeric string and
an explicit zero with leading zeros. -/
theorem maxAttempts_fallback_default_witness :
    jsParseInt "not-a-number" = none ∧ effectiveMaxAttempts "not-a-number" = 5 ∧
    jsParseInt "000" = some 0 ∧ effectiveMaxAttempts "000" = 5 :=
  ⟨by decide, maxAttempts_fallback_default.2.1 "not-a-number" (by decide),
   by decide, maxAttempts_fallback_default.2.2.1 "000" (by decide)⟩

/-- C10: `isSameErrorByHash` returns `false` for every pair of non-null
error records — including structurally identical records and a record
compared with itself — because it compares the two freshly constructed
`{hash, cleanedText}` result objects of `generateErrorHash` by reference
(`===` on distinct allocations) instead of comparing their `hash` fields,
which DO agree for identical inputs. -/
theorem isSameErrorByHash_always_false (cwd : String) (e1 e2 : ErrRecord) :
    isSameErrorByHash cwd (some e1) (some e2) = false ∧
    isSameErrorByHash cwd (some e1) (some e1) = false ∧
    (generateErrorHash cwd 0 e1).hash = (generateErrorHash cwd 1 e1).hash ∧
    (generateErrorHash cwd 0 e1).cleanedText =
      (generateErrorHash cwd 1 e1).cleanedText := by
  refine ⟨?_, ?_, rfl, rfl⟩ <;>
    simp [isSameErrorByHash, jsStrictEqObj, generateErrorHash]
